import Mathlib

/-!
Verification of the FALSE-to-LLVM-IR compiler (TypeScript sources:
`tokenizer.ts`, `parser.ts`, `compiler.ts`, `false.ts`).

The embedding models JavaScript strings as lists of UTF-16 code units
(`List Nat`).  Fallible code is modelled with `Except Err`; the two
distinguishable JavaScript exception classes that can escape the pipeline
are `Error(msg)` and the engine-raised `TypeError` from reading a property
of `null`.

Functions whose JavaScript originals are loops over a source position are
modelled with structural recursion on the remaining input where possible;
where the recursion is not structural (the parser's mutually nested
statement loop, the tokenizer driver, the compiler's quotation hoisting)
we use an explicit fuel parameter, returning `none` when fuel runs out.
The public entry points supply fuel that is large enough for every input
(the fuel never runs out in any theorem below: every result is proved to
be `some _`), keeping all definitions kernel-computable.
-/

namespace FalseC

/-- A JavaScript exception: `Error(msg)` thrown by the compiler itself, or
the engine `TypeError` raised by reading a property of `null` (the parser
does so when an `Asm` token is the last token of the input). -/
inductive Err where
  | error (msg : String)
  | typeError
deriving DecidableEq, Repr

/-- Token type, from `tokenizer.ts` (`enum TokenType` plus payloads).
`Variable` carries the one-character name, `String` the raw code units
between the quotes, `Integer` the numeric value. -/
inductive Token where
  | Variable (name : Nat)
  | String (text : List Nat)
  | Integer (value : Nat)
  | OpenBracket | CloseBracket
  | GetVar | SetVar
  | Dup | Discard | Swap | Rotate | Take
  | Plus | Minus | Mul | Div | Negate
  | BitAnd | BitOr | BitInvert
  | Equal | GreaterThan
  | Execute | ExecuteIf | While
  | Getc | Putc | PrintInt
  | Flush | Asm
deriving DecidableEq, Repr

/-- The fixed symbol table `Tokenizer.symbols`, keyed by UTF-16 code unit. -/
def symbols : List (Nat × Token) :=
  [ (91, .OpenBracket)    -- [
  , (93, .CloseBracket)   -- ]
  , (59, .GetVar)         -- ;
  , (58, .SetVar)         -- :
  , (36, .Dup)            -- $
  , (37, .Discard)        -- %
  , (92, .Swap)           -- backslash
  , (64, .Rotate)         -- @
  , (79, .Take)           -- O
  , (43, .Plus)           -- +
  , (45, .Minus)          -- -
  , (42, .Mul)            -- *
  , (47, .Div)            -- /
  , (95, .Negate)         -- _
  , (38, .BitAnd)         -- &
  , (124, .BitOr)         -- |
  , (126, .BitInvert)     -- ~
  , (61, .Equal)          -- =
  , (62, .GreaterThan)    -- >
  , (33, .Execute)        -- !
  , (63, .ExecuteIf)      -- ?
  , (35, .While)          -- #
  , (94, .Getc)           -- ^
  , (44, .Putc)           -- ,
  , (46, .PrintInt)       -- .
  , (66, .Flush)          -- B
  , (96, .Asm)            -- backtick
  ]

/-- Models `Tokenizer.symbols.get(ch)`. -/
def symLookup (c : Nat) : Option Token :=
  (symbols.find? (fun p => p.1 == c)).map (fun p => p.2)

/-- The ECMAScript `\s` character class used by `/\s/.test(ch)` in
`Tokenizer.next`: tab, LF, VT, FF, CR, space, NBSP, Ogham space mark,
the en-quad..hair-space block U+2000-U+200A, LS, PS, NNBSP, MMSP,
ideographic space and the BOM/ZWNBSP. -/
def jsWhitespace (c : Nat) : Bool :=
  c == 9 || c == 10 || c == 11 || c == 12 || c == 13 || c == 32 ||
  c == 160 || c == 5760 || (8192 ≤ c && c ≤ 8202) ||
  c == 8232 || c == 8233 || c == 8239 || c == 8287 || c == 12288 || c == 65279

/-- The six ASCII whitespace characters named by the specification. -/
def asciiWhitespace (c : Nat) : Bool :=
  c == 9 || c == 10 || c == 11 || c == 12 || c == 13 || c == 32

/-- The leading skip loop of `Tokenizer.next` with `#skipComment` inlined:
with `inComment = false` it repeatedly drops `\s` characters and, on `{`
(code 123), switches into comment mode; in comment mode (`inComment =
true`) it drops characters up to the closing `}` (code 125) and raises
`Unclosed comment` if the input ends first.  It returns the input left
over at the first character that starts a token. -/
def skipAll : Bool → List Nat → Except Err (List Nat)
  | true, [] => .error (.error "Unclosed comment")
  | false, [] => .ok []
  | true, c :: rest =>
      if c == 125 then skipAll false rest else skipAll true rest
  | false, c :: rest =>
      if jsWhitespace c then skipAll false rest
      else if c == 123 then skipAll true rest
      else .ok (c :: rest)

/-- A one-character JavaScript string, for error messages.
(The code units appearing in any message in this development are valid
scalar values, so `Char.ofNat` is faithful.) -/
def unitStr (c : Nat) : String :=
  String.mk [Char.ofNat c]

/-- Is the code unit an ASCII decimal digit (the check
`'0' <= ch && ch <= '9'`). -/
def isDig (c : Nat) : Bool := 48 ≤ c && c ≤ 57

/-- Numeric value of a digit run, as `parseInt` computes it on a string of
decimal digits. -/
def digitsVal (ds : List Nat) : Nat :=
  ds.foldl (fun acc d => acc * 10 + (d - 48)) 0

/-- Models `Tokenizer.#nextNumber`: take the maximal run of decimal digits and
parse it.  There is no range check of any kind. -/
def nextNumber (x : List Nat) : Option Token × List Nat :=
  (some (.Integer (digitsVal (x.takeWhile isDig))), x.dropWhile isDig)

/-- Models `Tokenizer.#nextChar`: after the `'` has been consumed, the next code
unit (whatever it is) becomes an `Integer` token; at end of input the
tokenizer throws `Expected a character`. -/
def nextCharTok (rest : List Nat) : Except Err (Option Token × List Nat) :=
  match rest with
  | [] => .error (.error "Expected a character")
  | c :: r => .ok (some (.Integer c), r)

/-- Models `Tokenizer.#nextString`: after the opening `"` has been consumed,
take everything up to the next `"` (code 34); the closing quote is
consumed by `#eat`, whose failure message interpolates the out-of-range
read `undefined`. -/
def nextStringTok (rest : List Nat) : Except Err (Option Token × List Nat) :=
  match rest.dropWhile (fun c => c != 34) with
  | [] => .error (.error "Expected \", got undefined instead")
  | _ :: r => .ok (some (.String (rest.takeWhile (fun c => c != 34))), r)

/-- The dispatch on the first non-skipped character in `Tokenizer.next`,
in source order: `'`, `"`, digit, lowercase letter, symbol table, invalid
character. -/
def tokDispatch (c : Nat) (rest : List Nat) : Except Err (Option Token × List Nat) :=
  if c == 39 then nextCharTok rest
  else if c == 34 then nextStringTok rest
  else if isDig c then .ok (nextNumber (c :: rest))
  else if 97 ≤ c && c ≤ 122 then .ok (some (.Variable c), rest)
  else match symLookup c with
    | some t => .ok (some t, rest)
    | none => .error (.error ("Invalid character: " ++ unitStr c))

/-- Models `Tokenizer.next`: one pull on the lazy token stream.  `ok (none, [])`
is the `done` result; otherwise the token and the input remaining after
it are returned. -/
def tokNext (x : List Nat) : Except Err (Option Token × List Nat) :=
  match skipAll false x with
  | .error e => .error e
  | .ok [] => .ok (none, [])
  | .ok (c :: rest) => tokDispatch c rest

/-- Driving the tokenizer to the end of input (fuel-indexed; every pull
that yields a token consumes at least one code unit, so
`length + 1` fuel always suffices). -/
def tokenizeF : Nat → List Nat → Option (Except Err (List Token))
  | 0, _ => none
  | f + 1, x =>
    match tokNext x with
    | .error e => some (.error e)
    | .ok (none, _) => some (.ok [])
    | .ok (some t, r) =>
      match tokenizeF f r with
      | none => none
      | some (.error e) => some (.error e)
      | some (.ok ts) => some (.ok (t :: ts))

/-- The whole token stream of a source. -/
def tokenize (x : List Nat) : Option (Except Err (List Token)) :=
  tokenizeF (x.length + 1) x

/-- Code units of a Lean string (every character in the sources we quote
is in the BMP, where code points and UTF-16 units agree). -/
def units (s : String) : List Nat :=
  s.data.map Char.toNat

instance {ε α : Type} [DecidableEq ε] [DecidableEq α] : DecidableEq (Except ε α) := fun
  | .ok a, .ok b =>
    if h : a = b then isTrue (by rw [h])
    else isFalse (by intro he; cases he; exact h rfl)
  | .ok _, .error _ => isFalse (by intro h; cases h)
  | .error _, .ok _ => isFalse (by intro h; cases h)
  | .error a, .error b =>
    if h : a = b then isTrue (by rw [h])
    else isFalse (by intro he; cases he; exact h rfl)

/-! ## Parser (`parser.ts`) -/

/-- AST node type, from `parser.ts` (`enum AstType` plus payloads).
`Quote` carries the bracketed statement sequence. -/
inductive AstNode where
  | Variable (name : Nat)
  | String (text : List Nat)
  | Integer (value : Nat)
  | Quote (body : List AstNode)
  | GetVar | SetVar
  | Dup | Discard | Swap | Rotate | Take
  | Plus | Minus | Mul | Div | Negate
  | BitAnd | BitOr | BitInvert
  | Equal | GreaterThan
  | Execute | ExecuteIf | While
  | Getc | Putc | PrintInt

/-- Parser state: the one-token lookahead `#currentToken` (`none` models
JavaScript `null` after the stream reported `done`) and the tokenizer
position, represented by the source not yet consumed. -/
structure PState where
  current : Option Token
  rest : List Nat
deriving DecidableEq, Repr

/-- Models `Parser.#next`: pull one token from the lazy tokenizer into the
lookahead slot.  A lex error raised by the pull propagates. -/
def doNext (s : PState) : Except Err PState :=
  match tokNext s.rest with
  | .error e => .error e
  | .ok (t, r) => .ok ⟨t, r⟩

/-- Models `Parser.parseStatements`, fuel-indexed.  The JavaScript `while` loop
becomes recursion: each iteration handles the lookahead token and
recurses on the rest of the statement list.  The loop exits (returning
the statements collected so far, with the lookahead untouched) on `null`
lookahead or on `CloseBracket`; `OpenBracket` recursively parses the
quotation body and then consumes the terminating lookahead exactly as
`instr` does; `Flush` is dropped; `Asm` reads one further token and
always throws - via the engine `TypeError` if the lookahead is `null`
(the JavaScript reads `.type` of `null`), via `Assembly is not
supported` after an `Integer` (note the extra `#next()` before the
throw, whose own lex error would propagate first), and via the
`Expected a short` syntax error otherwise.  The local `atom` is the
`instr` helper: record the node, advance the lookahead, continue. -/
def parseStatementsF : Nat → PState → Option (Except Err (List AstNode × PState))
  | 0, _ => none
  | f + 1, s =>
    match s.current with
    | none => some (.ok ([], s))
    | some tok =>
      let atom (node : AstNode) : Option (Except Err (List AstNode × PState)) :=
        match doNext s with
        | .error e => some (.error e)
        | .ok s1 =>
          match parseStatementsF f s1 with
          | none => none
          | some (.error e) => some (.error e)
          | some (.ok (stmts, s2)) => some (.ok (node :: stmts, s2))
      match tok with
      | .CloseBracket => some (.ok ([], s))
      | .OpenBracket =>
        match doNext s with
        | .error e => some (.error e)
        | .ok s1 =>
          match parseStatementsF f s1 with
          | none => none
          | some (.error e) => some (.error e)
          | some (.ok (body, s2)) =>
            match doNext s2 with
            | .error e => some (.error e)
            | .ok s3 =>
              match parseStatementsF f s3 with
              | none => none
              | some (.error e) => some (.error e)
              | some (.ok (stmts, s4)) => some (.ok (.Quote body :: stmts, s4))
      | .Flush =>
        match doNext s with
        | .error e => some (.error e)
        | .ok s1 => parseStatementsF f s1
      | .Asm =>
        match doNext s with
        | .error e => some (.error e)
        | .ok s1 =>
          match s1.current with
          | none => some (.error .typeError)
          | some (.Integer _) =>
            match doNext s1 with
            | .error e => some (.error e)
            | .ok _ => some (.error (.error "Assembly is not supported"))
          | some _ => some (.error (.error "Syntax error: Expected a short"))
      | .Variable v => atom (.Variable v)
      | .String str => atom (.String str)
      | .Integer n => atom (.Integer n)
      | .GetVar => atom .GetVar
      | .SetVar => atom .SetVar
      | .Dup => atom .Dup
      | .Discard => atom .Discard
      | .Swap => atom .Swap
      | .Rotate => atom .Rotate
      | .Take => atom .Take
      | .Plus => atom .Plus
      | .Minus => atom .Minus
      | .Mul => atom .Mul
      | .Div => atom .Div
      | .Negate => atom .Negate
      | .BitAnd => atom .BitAnd
      | .BitOr => atom .BitOr
      | .BitInvert => atom .BitInvert
      | .Equal => atom .Equal
      | .GreaterThan => atom .GreaterThan
      | .Execute => atom .Execute
      | .ExecuteIf => atom .ExecuteIf
      | .While => atom .While
      | .Getc => atom .Getc
      | .Putc => atom .Putc
      | .PrintInt => atom .PrintInt

/-- The result shape of the `instr` helper for a one-to-one token case
(used to state the per-token unfolding equations below). -/
def atomRhs (f : Nat) (s : PState) (node : AstNode) :
    Option (Except Err (List AstNode × PState)) :=
  match doNext s with
  | .error e => some (.error e)
  | .ok s1 =>
    match parseStatementsF f s1 with
    | none => none
    | some (.error e) => some (.error e)
    | some (.ok (stmts, s2)) => some (.ok (node :: stmts, s2))

/-- Fuel that always suffices for `parseStatementsF` (each unit of fuel
either consumes a token, worth at least one code unit, or finishes a
sub-parse at end of input). -/
def pfuel (x : List Nat) : Nat := 2 * x.length + 2

/-- Running `parse` up to the point where `Parser.parseStatements` returns,
exposing the final parser state (lookahead and unconsumed source).  The
constructor `new Parser(tokenizer)` performs the first `#next()`. -/
def parseWithRest (x : List Nat) : Option (Except Err (List AstNode × PState)) :=
  match doNext ⟨none, x⟩ with
  | .error e => some (.error e)
  | .ok s => parseStatementsF (pfuel x) s

/-- The exported `parse(source)` of `parser.ts`: the top-level statement
list (any unconsumed input is simply ignored). -/
def parse (x : List Nat) : Option (Except Err (List AstNode)) :=
  (parseWithRest x).map (fun r => r.map Prod.fst)

/-! ## Decimal and hexadecimal printing

JavaScript renders the numbers interpolated into the IR (temporaries,
label and symbol counters, integer literals) in decimal via
`Number.prototype.toString`, and string bytes in lowercase hexadecimal
via `toString(16)` with a leading-zero pad.  Both are reimplemented here
structurally so that emitted text is kernel-computable. -/

/-- Decimal digit character. -/
def digitChar (d : Nat) : Char := Char.ofNat (48 + d)

/-- Big-endian decimal digits of `n`, fuel-indexed (`n + 1` fuel always
suffices because `n / 10 < n` for `n ≥ 10`). -/
def natDigitsBE : Nat → Nat → List Nat
  | 0, _ => []
  | f + 1, n => if n < 10 then [n] else natDigitsBE f (n / 10) ++ [n % 10]

/-- Decimal rendering of a natural number, as JavaScript renders the
(non-negative integral) numbers occurring in this compiler. -/
def natToString (n : Nat) : String :=
  String.mk ((natDigitsBE (n + 1) n).map digitChar)

/-- Lowercase hexadecimal digit character, as `toString(16)` uses. -/
def hexChar (d : Nat) : Char :=
  if d < 10 then Char.ofNat (48 + d) else Char.ofNat (87 + d)

/-- Two-digit lowercase hexadecimal rendering of a byte: `toString(16)`
padded with a leading `0` when a single digit (`encode_string`). -/
def hex2 (n : Nat) : String := String.mk [hexChar (n / 16), hexChar (n % 16)]

/-! ## Code generator (`compiler.ts`) -/

/-- Models `TextEncoder.encode`: UTF-8 bytes of a JavaScript (UTF-16) string,
fuel-indexed.  Well-formed surrogate pairs combine to a 4-byte sequence;
a lone surrogate encodes as U+FFFD (`ef bf bd`). -/
def utf16ToUtf8F : Nat → List Nat → List Nat
  | 0, _ => []
  | _ + 1, [] => []
  | f + 1, u :: rest =>
    if u < 128 then u :: utf16ToUtf8F f rest
    else if u < 2048 then (192 + u / 64) :: (128 + u % 64) :: utf16ToUtf8F f rest
    else if 55296 ≤ u && u ≤ 56319 then
      match rest with
      | v :: rest2 =>
        if 56320 ≤ v && v ≤ 57343 then
          let cp := 65536 + (u - 55296) * 1024 + (v - 56320)
          (240 + cp / 262144) :: (128 + cp / 4096 % 64) ::
            (128 + cp / 64 % 64) :: (128 + cp % 64) :: utf16ToUtf8F f rest2
        else 239 :: 191 :: 189 :: utf16ToUtf8F f rest
      | [] => [239, 191, 189]
    else if 56320 ≤ u && u ≤ 57343 then 239 :: 191 :: 189 :: utf16ToUtf8F f rest
    else (224 + u / 4096) :: (128 + u / 64 % 64) :: (128 + u % 64) :: utf16ToUtf8F f rest

/-- Models `TextEncoder.encode` of a whole string (each step of `utf16ToUtf8F`
consumes at least one unit per unit of fuel, so `length` fuel always
suffices). -/
def utf16ToUtf8 (x : List Nat) : List Nat := utf16ToUtf8F x.length x

/-- Models `encode_string(str)`: the pair of the `[N x i8]` length
(UTF-8 byte count plus one for the terminator) and the `\hh`-escaped
byte text ending in `\00`. -/
def encode_string (str : List Nat) : Nat × String :=
  let enc := utf16ToUtf8 str
  (enc.length + 1, String.join (enc.map (fun b => "\\" ++ hex2 b)) ++ "\\00")

/-- Models `varName(name)`: the global for a variable. -/
def varName (c : Nat) : String := "@var_" ++ unitStr c

/-- The enum value of an AST node's `type` tag, in `AstType` declaration
order; `a.type === b.type` is `astTag a == astTag b`. -/
def astTag : AstNode → Nat
  | .Variable _ => 0
  | .String _ => 1
  | .Integer _ => 2
  | .Quote _ => 3
  | .GetVar => 4
  | .SetVar => 5
  | .Dup => 6
  | .Discard => 7
  | .Swap => 8
  | .Rotate => 9
  | .Take => 10
  | .Plus => 11
  | .Minus => 12
  | .Mul => 13
  | .Div => 14
  | .Negate => 15
  | .BitAnd => 16
  | .BitOr => 17
  | .BitInvert => 18
  | .Equal => 19
  | .GreaterThan => 20
  | .Execute => 21
  | .ExecuteIf => 22
  | .While => 23
  | .Getc => 24
  | .Putc => 25
  | .PrintInt => 26

mutual

/-- Models `astEqual(a, b)` from `compiler.ts`, at the argument shape at which it
is called (two arrays: a candidate `Quote` body against a hoisted one; the
`typeof`/`instanceof` preamble then falls through to the array branch).

After the length comparison, the `for` loop compares `a[i].type` with
`b[i].type` and then RETURNS `astEqual(a[i].value, b[i].value)` from
inside the loop body, so for non-empty arrays only the FIRST elements are
ever compared.  The inner `astEqual(a[0].value, b[0].value)` call on two
same-tagged nodes is inlined here: payload-free kinds carry `undefined`
on both sides (`undefined === undefined` is `true`), `Variable`/`String`
compare as strings, `Integer` as numbers and `Quote` recurses on the
bodies.  (The `[], b` case folds the leading length test into the
pattern: equal lengths and an empty first array mean both are empty.) -/
def astEqual : List AstNode → List AstNode → Bool
  | [], b => b.length == 0
  | _ :: _, [] => false
  | x :: xs, y :: ys =>
    if xs.length != ys.length then false
    else if astTag x != astTag y then false
    else astEqualVal x y

/-- The inner `astEqual(a[0].value, b[0].value)` call, on two nodes
already known to have the same `type` tag. -/
def astEqualVal : AstNode → AstNode → Bool
  | .Variable va, .Variable vb => va == vb
  | .String sa, .String sb => sa == sb
  | .Integer na, .Integer nb => na == nb
  | .Quote qa, .Quote qb => astEqual qa qb
  | _, _ => true

end

mutual

/-- Structural AST-equality in the sense of the specification
(kinds and payloads identical, node for node, recursing into nested
`Quote` bodies).  This is the equality the deduplication claim is stated
against; it is NOT the `astEqual` the code runs. -/
def astEqualSpec : List AstNode → List AstNode → Bool
  | [], [] => true
  | x :: xs, y :: ys => astEqualSpecN x y && astEqualSpec xs ys
  | _, _ => false

/-- Spec-side structural equality of two single nodes: same kind and,
where present, equal payload. -/
def astEqualSpecN : AstNode → AstNode → Bool
  | .Variable va, .Variable vb => va == vb
  | .String sa, .String sb => sa == sb
  | .Integer na, .Integer nb => na == nb
  | .Quote qa, .Quote qb => astEqualSpec qa qb
  | a, b => astTag a == astTag b

end

/-- Per-compilation code generator state (`class Compiler`): the hoisted
functions (body, name, emitted definition), the string intern map in
insertion order, and the two name counters (each
`TemporaryGenerator` starts at id 1). -/
structure Compiler where
  functions : List (List AstNode × String × String)
  strings : List (List Nat × String)
  lambdaId : Nat
  strId : Nat

/-- The state of `new Compiler()`. -/
def initCompiler : Compiler := ⟨[], [], 1, 1⟩

/-- Name produced by the `%t` temporary generator. -/
def tempName (t : Nat) : String := "%t" ++ natToString t

/-- Name produced by the `label_` generator. -/
def labelName (l : Nat) : String := "label_" ++ natToString l

/-- Name produced by the `@lambda_` generator. -/
def lambdaName (k : Nat) : String := "@lambda_" ++ natToString k

/-- Name produced by the `@str_` generator. -/
def strName (k : Nat) : String := "@str_" ++ natToString k

/-- Models `basicOp(op)` from `Compiler.#compile`: pop the second operand, pop
the first, combine with `op` (first on the left), push the result.
Returns the emitted instructions and the advanced temporary counter. -/
def basicOp (op : String) (t : Nat) : List String × Nat :=
  let second := tempName t
  let first := tempName (t + 1)
  let result := tempName (t + 2)
  ([ second ++ " = call i32 @stack_pop_int()"
   , first ++ " = call i32 @stack_pop_int()"
   , result ++ " = " ++ op ++ " i32 " ++ first ++ ", " ++ second
   , "call void @stack_push_int(i32 " ++ result ++ ")" ], t + 3)

/-- Models `cmp(op)` from `Compiler.#compile`: pop the second operand, pop the
first, `icmp` them (first on the left), sign-extend the `i1` to `i32`,
push. -/
def cmp (op : String) (t : Nat) : List String × Nat :=
  let second := tempName t
  let first := tempName (t + 1)
  let result := tempName (t + 2)
  let cast := tempName (t + 3)
  ([ second ++ " = call i32 @stack_pop_int()"
   , first ++ " = call i32 @stack_pop_int()"
   , result ++ " = icmp " ++ op ++ " i32 " ++ first ++ ", " ++ second
   , cast ++ " = sext i1 " ++ result ++ " to i32"
   , "call void @stack_push_int(i32 " ++ cast ++ ")" ], t + 4)

/-- Models `Compiler.#getConstString(str)`: look the literal up in the intern
map; on a miss assign the next `@str_K` and record it. -/
def getConstString (str : List Nat) (c : Compiler) : String × Compiler :=
  match (c.strings.find? (fun p => p.1 == str)).map (fun p => p.2) with
  | some name => (name, c)
  | none =>
    let name := strName c.strId
    (name, { c with strings := c.strings ++ [(str, name)], strId := c.strId + 1 })

mutual

/-- Models `Compiler.#compile(nodes)` and `Compiler.#getFunction` (inlined in
the `Quote` case), as one mutual structural recursion.  `t` and `l` are
the states of the per-function `%t` and `label_` generators; fresh
generators, both starting at 1, are created for each hoisted body,
exactly as `#compile` constructs new `TemporaryGenerator`s.
`compileNode` is one iteration of the `switch`; `compileSeq` (below) is
the loop, returning the instruction list together with the final
counters and compiler state. -/
def compileNode : AstNode → Nat → Nat → Compiler → List String × Nat × Nat × Compiler
  | .Variable v, t, l, c =>
    (["call void @stack_push_ref(%union.FalseValue* " ++ varName v ++ ")"], t, l, c)
  | .String s, t, l, c =>
    let r := getConstString s c
    (["call i32 @printf(i8* @.fmt, i8* " ++ r.1 ++ ")"], t, l, r.2)
  | .Integer n, t, l, c =>
    (["call void @stack_push_int(i32 " ++ natToString n ++ ")"], t, l, c)
  | .Quote body, t, l, c =>
    -- `#getFunction(node.value)`: search the hoisted list with `astEqual`;
    -- on a match reuse the recorded name, otherwise draw the next
    -- `@lambda_K` (the generator advances BEFORE the body is compiled, so
    -- quotations hoisted while compiling the body get later numbers and
    -- enter the list first), compile the body with fresh generators, wrap
    -- it in `define void @lambda_K()` and append it to the list.
    match (c.functions.find? (fun fn => astEqual body fn.1)).map (fun fn => fn.2.1) with
    | some name =>
      (["call void @stack_push_quote(void()* " ++ name ++ ")"], t, l, c)
    | none =>
      let name := lambdaName c.lambdaId
      let c1 : Compiler := { c with lambdaId := c.lambdaId + 1 }
      let r := compileSeq body 1 1 c1
      let compiled := "define void " ++ name ++ "() \x7b\nentry:\n" ++
        String.intercalate "\n" r.1 ++ "\nret void\n\x7d"
      let c3 : Compiler :=
        { r.2.2.2 with functions := r.2.2.2.functions ++ [(body, name, compiled)] }
      (["call void @stack_push_quote(void()* " ++ name ++ ")"], t, l, c3)
  | .GetVar, t, l, c =>
    let varRef := tempName t
    let value := tempName (t + 1)
    ([ varRef ++ " = call %union.FalseValue* @stack_pop_ref()"
     , value ++ " = load %union.FalseValue, %union.FalseValue* " ++ varRef
     , "call void @stack_push_any(%union.FalseValue " ++ value ++ ")" ], t + 2, l, c)
  | .SetVar, t, l, c =>
    let varRef := tempName t
    let value := tempName (t + 1)
    ([ varRef ++ " = call %union.FalseValue* @stack_pop_ref()"
     , value ++ " = call %union.FalseValue @stack_pop_any()"
     , "store %union.FalseValue " ++ value ++ ", %union.FalseValue* " ++ varRef ]
     , t + 2, l, c)
  | .Dup, t, l, c =>
    let value := tempName t
    ([ value ++ " = call %union.FalseValue @stack_peek_any(i32 0)"
     , "call void @stack_push_any(%union.FalseValue " ++ value ++ ")" ], t + 1, l, c)
  | .Discard, t, l, c =>
    (["call %union.FalseValue @stack_pop_any()"], t, l, c)
  | .Swap, t, l, c =>
    let first := tempName t
    let second := tempName (t + 1)
    ([ first ++ " = call %union.FalseValue @stack_pop_any()"
     , second ++ " = call %union.FalseValue @stack_pop_any()"
     , "call void @stack_push_any(%union.FalseValue " ++ first ++ ")"
     , "call void @stack_push_any(%union.FalseValue " ++ second ++ ")" ], t + 2, l, c)
  | .Rotate, t, l, c =>
    let first := tempName t
    let second := tempName (t + 1)
    let third := tempName (t + 2)
    ([ first ++ " = call %union.FalseValue @stack_pop_any()"
     , second ++ " = call %union.FalseValue @stack_pop_any()"
     , third ++ " = call %union.FalseValue @stack_pop_any()"
     , "call void @stack_push_any(%union.FalseValue " ++ second ++ ")"
     , "call void @stack_push_any(%union.FalseValue " ++ first ++ ")"
     , "call void @stack_push_any(%union.FalseValue " ++ third ++ ")" ], t + 3, l, c)
  | .Take, t, l, c =>
    let depth := tempName t
    let value := tempName (t + 1)
    ([ depth ++ " = call i32 @stack_pop_int()"
     , value ++ " = call %union.FalseValue @stack_peek_any(i32 " ++ depth ++ ")"
     , "call void @stack_push_any(%union.FalseValue " ++ value ++ ")" ], t + 2, l, c)
  | .Plus, t, l, c => let r := basicOp "add" t; (r.1, r.2, l, c)
  | .Minus, t, l, c => let r := basicOp "sub" t; (r.1, r.2, l, c)
  | .Mul, t, l, c => let r := basicOp "mul" t; (r.1, r.2, l, c)
  | .Div, t, l, c => let r := basicOp "sdiv" t; (r.1, r.2, l, c)
  | .Negate, t, l, c =>
    let value := tempName t
    let temp := tempName (t + 1)
    ([ value ++ " = call i32 @stack_pop_int()"
     , temp ++ " = sub i32 0, " ++ value
     , "call void @stack_push_int(i32 " ++ temp ++ ")" ], t + 2, l, c)
  | .BitAnd, t, l, c => let r := basicOp "and" t; (r.1, r.2, l, c)
  | .BitOr, t, l, c => let r := basicOp "or" t; (r.1, r.2, l, c)
  | .BitInvert, t, l, c =>
    let value := tempName t
    let temp := tempName (t + 1)
    ([ value ++ " = call i32 @stack_pop_int()"
     , temp ++ " = xor i32 -1, " ++ value
     , "call void @stack_push_int(i32 " ++ temp ++ ")" ], t + 2, l, c)
  | .Equal, t, l, c => let r := cmp "eq" t; (r.1, r.2, l, c)
  | .GreaterThan, t, l, c => let r := cmp "sgt" t; (r.1, r.2, l, c)
  | .Execute, t, l, c =>
    let value := tempName t
    ([ value ++ " = call void()* @stack_pop_quote()"
     , "call void " ++ value ++ "()" ], t + 1, l, c)
  | .ExecuteIf, t, l, c =>
    let iftrue := labelName l
    let iffalse := labelName (l + 1)
    let quote := tempName t
    let value := tempName (t + 1)
    let cond := tempName (t + 2)
    ([ quote ++ " = call void()* @stack_pop_quote()"
     , value ++ " = call i32 @stack_pop_int()"
     , cond ++ " = icmp ne i32 " ++ value ++ ", 0"
     , "br i1 " ++ cond ++ ", label %" ++ iftrue ++ ", label %" ++ iffalse
     , iftrue ++ ":"
     , "call void " ++ quote ++ "()"
     , "br label %" ++ iffalse
     , iffalse ++ ":" ], t + 3, l + 2, c)
  | .While, t, l, c =>
    let loop := labelName l
    let iftrue := labelName (l + 1)
    let iffalse := labelName (l + 2)
    let body := tempName t
    let condQuote := tempName (t + 1)
    let value := tempName (t + 2)
    let cond := tempName (t + 3)
    ([ body ++ " = call void()* @stack_pop_quote()"
     , condQuote ++ " = call void()* @stack_pop_quote()"
     , "br label %" ++ loop
     , loop ++ ":"
     , "call void " ++ condQuote ++ "()"
     , value ++ " = call i32 @stack_pop_int()"
     , cond ++ " = icmp ne i32 " ++ value ++ ", 0"
     , "br i1 " ++ cond ++ ", label %" ++ iftrue ++ ", label %" ++ iffalse
     , iftrue ++ ":"
     , "call void " ++ body ++ "()"
     , "br label %" ++ loop
     , iffalse ++ ":" ], t + 4, l + 3, c)
  | .Getc, t, l, c =>
    let temp := tempName t
    ([ temp ++ " = call i32 @getchar()"
     , "call void @stack_push_int(i32 " ++ temp ++ ")" ], t + 1, l, c)
  | .Putc, t, l, c =>
    let temp := tempName t
    ([ temp ++ " = call i32 @stack_pop_int()"
     , "call i32 @putchar(i32 " ++ temp ++ ")" ], t + 1, l, c)
  | .PrintInt, t, l, c =>
    let temp := tempName t
    ([ temp ++ " = call i32 @stack_pop_int()"
     , "call i32 @printf(i8* @.num, i32 " ++ temp ++ ")" ], t + 1, l, c)

def compileSeq : List AstNode → Nat → Nat → Compiler → List String × Nat × Nat × Compiler
  | [], t, l, c => ([], t, l, c)
  | node :: rest, t, l, c =>
    let r1 := compileNode node t l c
    let r2 := compileSeq rest r1.2.1 r1.2.2.1 r1.2.2.2
    (r1.1 ++ r2.1, r2.2.1, r2.2.2.1, r2.2.2.2)

end

/-- Models `Compiler.#getFunction(nodes)` as a standalone operation (its logic
is inlined in the `Quote` case of `compileNode` above; this wrapper
restates it for use in theorem statements). -/
def getFunction (nodes : List AstNode) (c : Compiler) : String × Compiler :=
  match (c.functions.find? (fun fn => astEqual nodes fn.1)).map (fun fn => fn.2.1) with
  | some name => (name, c)
  | none =>
    let name := lambdaName c.lambdaId
    let c1 : Compiler := { c with lambdaId := c.lambdaId + 1 }
    let r := compileSeq nodes 1 1 c1
    let compiled := "define void " ++ name ++ "() \x7b\nentry:\n" ++
      String.intercalate "\n" r.1 ++ "\nret void\n\x7d"
    (name, { r.2.2.2 with functions := r.2.2.2.functions ++ [(nodes, name, compiled)] })

/-- The emitted line of one interned string constant, from
`Compiler.compile`. -/
def constLine (str : List Nat) (name : String) : String :=
  let r := encode_string str
  name ++ " = private unnamed_addr constant [" ++ natToString r.1 ++ " x i8] c\"" ++
    r.2 ++ "\""

/-- The variable parts of `Compiler.compile(ast)` (everything after the
fixed runtime prologue `head`, which no claim mentions): the interned
string constant lines, the hoisted function definitions, and the body of
`@main`, together with the final compiler state. -/
def compileProgram (ast : List AstNode) :
    List String × List String × List String × Compiler :=
  let r := compileSeq ast 1 1 initCompiler
  let c := r.2.2.2
  (c.strings.map (fun p => constLine p.1 p.2), c.functions.map (fun fn => fn.2.2), r.1, c)

/-! ## The CLI default output name (`false.ts`)

`main` derives the output filename as
`filename.replace(/\..+$/, '.ll')` when the second argument is absent.
The regex `/\..+$/` matches a literal dot followed by one or more
characters none of which is a line terminator (`.` excludes LF, CR, LS
and PS), anchored at the very end of the string; `replace` substitutes
the leftmost such match - which always extends to the end - with `.ll`,
and returns the input unchanged when there is no match. -/

/-- Can ECMAScript `.` (without the `s` flag) match this character?
Everything but LF, CR, LS (U+2028) and PS (U+2029). -/
def notLineTerm (c : Char) : Bool :=
  c.toNat != 10 && c.toNat != 13 && c.toNat != 8232 && c.toNat != 8233

/-- Models `filename.replace(/\..+$/, '.ll')`: scan for the leftmost `.` whose
(non-empty) suffix consists of `.`-matchable characters only and replace
from there to the end with `.ll`; no match leaves the name unchanged. -/
def replaceExtLl : List Char → List Char
  | [] => []
  | c :: rest =>
    if c = '.' ∧ rest ≠ [] ∧ rest.all notLineTerm then
      '.' :: 'l' :: 'l' :: []
    else c :: replaceExtLl rest

/-! ## String interning as a sequence of calls (claim C8) -/

/-- Run `Compiler.#getConstString` on a list of literals in order,
collecting the name each call returns. -/
def internAll : List (List Nat) → Compiler → List String × Compiler
  | [], c => ([], c)
  | s :: ss, c =>
    let r := getConstString s c
    let rs := internAll ss r.2
    (r.1 :: rs.1, rs.2)

/-- The intern-map invariant every reachable compiler state satisfies:
every recorded name is `@str_k` for some `1 ≤ k` below the counter, and
the recorded names are pairwise distinct. -/
def WFstrings (c : Compiler) : Prop :=
  1 ≤ c.strId ∧
  (∀ p ∈ c.strings, ∃ k, 1 ≤ k ∧ k < c.strId ∧ p.2 = strName k) ∧
  (c.strings.map (fun p => p.2)).Nodup

/-- Looking a literal up in the intern map. -/
def lookupName (c : Compiler) (s : List Nat) : Option String :=
  (c.strings.find? (fun p => p.1 == s)).map (fun p => p.2)

/-! # Verification

## Injectivity of the decimal rendering

Distinctness of generated `@str_K` names reduces to injectivity of
`natToString`. -/

/-- Big-endian numeric value of a digit list. -/
def valBE (ds : List Nat) : Nat := ds.foldl (fun a d => 10 * a + d) 0

/-- Abbreviation used to align fuel values in the C2 proof. -/
def psfuelAux (x : List Nat) : Nat := (pfuel x + 1) + 1

/-- Classify the tokens the parser maps one-to-one to AST nodes
(`OpenBracket`, `CloseBracket`, `Flush` and `Asm` are the four with
bespoke handling). -/
def tokAtom : Token → Option AstNode
  | .Variable v => some (.Variable v)
  | .String s => some (.String s)
  | .Integer n => some (.Integer n)
  | .OpenBracket => none
  | .CloseBracket => none
  | .Flush => none
  | .Asm => none
  | .GetVar => some .GetVar
  | .SetVar => some .SetVar
  | .Dup => some .Dup
  | .Discard => some .Discard
  | .Swap => some .Swap
  | .Rotate => some .Rotate
  | .Take => some .Take
  | .Plus => some .Plus
  | .Minus => some .Minus
  | .Mul => some .Mul
  | .Div => some .Div
  | .Negate => some .Negate
  | .BitAnd => some .BitAnd
  | .BitOr => some .BitOr
  | .BitInvert => some .BitInvert
  | .Equal => some .Equal
  | .GreaterThan => some .GreaterThan
  | .Execute => some .Execute
  | .ExecuteIf => some .ExecuteIf
  | .While => some .While
  | .Getc => some .Getc
  | .Putc => some .Putc
  | .PrintInt => some .PrintInt

/-! Unfolding equations for `parseStatementsF`, one per lookahead shape
(all definitional). -/

theorem psF_zero (s : PState) : parseStatementsF 0 s = none := rfl

theorem psF_none (f : Nat) (rest : List Nat) :
    parseStatementsF (f + 1) ⟨none, rest⟩ = some (.ok ([], ⟨none, rest⟩)) := rfl

theorem psF_Close (f : Nat) (rest : List Nat) :
    parseStatementsF (f + 1) ⟨some .CloseBracket, rest⟩ =
      some (.ok ([], ⟨some .CloseBracket, rest⟩)) := rfl

theorem psF_Open (f : Nat) (rest : List Nat) :
    parseStatementsF (f + 1) ⟨some .OpenBracket, rest⟩ =
      (match doNext ⟨some .OpenBracket, rest⟩ with
       | .error e => some (.error e)
       | .ok s1 =>
         match parseStatementsF f s1 with
         | none => none
         | some (.error e) => some (.error e)
         | some (.ok (body, s2)) =>
           match doNext s2 with
           | .error e => some (.error e)
           | .ok s3 =>
             match parseStatementsF f s3 with
             | none => none
             | some (.error e) => some (.error e)
             | some (.ok (stmts, s4)) => some (.ok (.Quote body :: stmts, s4))) := rfl

theorem psF_Flush (f : Nat) (rest : List Nat) :
    parseStatementsF (f + 1) ⟨some .Flush, rest⟩ =
      (match doNext ⟨some .Flush, rest⟩ with
       | .error e => some (.error e)
       | .ok s1 => parseStatementsF f s1) := rfl

theorem psF_Asm (f : Nat) (rest : List Nat) :
    parseStatementsF (f + 1) ⟨some .Asm, rest⟩ =
      (match doNext ⟨some .Asm, rest⟩ with
       | .error e => some (.error e)
       | .ok s1 =>
         match s1.current with
         | none => some (.error .typeError)
         | some (.Integer _) =>
           match doNext s1 with
           | .error e => some (.error e)
           | .ok _ => some (.error (.error "Assembly is not supported"))
         | some _ => some (.error (.error "Syntax error: Expected a short"))) := rfl

theorem doNext_eq (cur : Option Token) (rest : List Nat) :
    doNext ⟨cur, rest⟩ =
      (match tokNext rest with
       | .error e => .error e
       | .ok (t, r) => .ok ⟨t, r⟩) := rfl

theorem psF_Variable (f : Nat) (v : Nat) (rest : List Nat) :
    parseStatementsF (f + 1) ⟨some (.Variable v), rest⟩ =
      atomRhs f ⟨some (.Variable v), rest⟩ (.Variable v) := rfl

theorem psF_String (f : Nat) (str : List Nat) (rest : List Nat) :
    parseStatementsF (f + 1) ⟨some (.String str), rest⟩ =
      atomRhs f ⟨some (.String str), rest⟩ (.String str) := rfl

theorem psF_Integer (f : Nat) (n : Nat) (rest : List Nat) :
    parseStatementsF (f + 1) ⟨some (.Integer n), rest⟩ =
      atomRhs f ⟨some (.Integer n), rest⟩ (.Integer n) := rfl

theorem psF_GetVar (f : Nat) (rest : List Nat) :
    parseStatementsF (f + 1) ⟨some .GetVar, rest⟩ =
      atomRhs f ⟨some .GetVar, rest⟩ .GetVar := rfl

theorem psF_SetVar (f : Nat) (rest : List Nat) :
    parseStatementsF (f + 1) ⟨some .SetVar, rest⟩ =
      atomRhs f ⟨some .SetVar, rest⟩ .SetVar := rfl

theorem psF_Dup (f : Nat) (rest : List Nat) :
    parseStatementsF (f + 1) ⟨some .Dup, rest⟩ =
      atomRhs f ⟨some .Dup, rest⟩ .Dup := rfl

theorem psF_Discard (f : Nat) (rest : List Nat) :
    parseStatementsF (f + 1) ⟨some .Discard, rest⟩ =
      atomRhs f ⟨some .Discard, rest⟩ .Discard := rfl

theorem psF_Swap (f : Nat) (rest : List Nat) :
    parseStatementsF (f + 1) ⟨some .Swap, rest⟩ =
      atomRhs f ⟨some .Swap, rest⟩ .Swap := rfl

theorem psF_Rotate (f : Nat) (rest : List Nat) :
    parseStatementsF (f + 1) ⟨some .Rotate, rest⟩ =
      atomRhs f ⟨some .Rotate, rest⟩ .Rotate := rfl

theorem psF_Take (f : Nat) (rest : List Nat) :
    parseStatementsF (f + 1) ⟨some .Take, rest⟩ =
      atomRhs f ⟨some .Take, rest⟩ .Take := rfl

theorem psF_Plus (f : Nat) (rest : List Nat) :
    parseStatementsF (f + 1) ⟨some .Plus, rest⟩ =
      atomRhs f ⟨some .Plus, rest⟩ .Plus := rfl

theorem psF_Minus (f : Nat) (rest : List Nat) :
    parseStatementsF (f + 1) ⟨some .Minus, rest⟩ =
      atomRhs f ⟨some .Minus, rest⟩ .Minus := rfl

theorem psF_Mul (f : Nat) (rest : List Nat) :
    parseStatementsF (f + 1) ⟨some .Mul, rest⟩ =
      atomRhs f ⟨some .Mul, rest⟩ .Mul := rfl

theorem psF_Div (f : Nat) (rest : List Nat) :
    parseStatementsF (f + 1) ⟨some .Div, rest⟩ =
      atomRhs f ⟨some .Div, rest⟩ .Div := rfl

theorem psF_Negate (f : Nat) (rest : List Nat) :
    parseStatementsF (f + 1) ⟨some .Negate, rest⟩ =
      atomRhs f ⟨some .Negate, rest⟩ .Negate := rfl

theorem psF_BitAnd (f : Nat) (rest : List Nat) :
    parseStatementsF (f + 1) ⟨some .BitAnd, rest⟩ =
      atomRhs f ⟨some .BitAnd, rest⟩ .BitAnd := rfl

theorem psF_BitOr (f : Nat) (rest : List Nat) :
    parseStatementsF (f + 1) ⟨some .BitOr, rest⟩ =
      atomRhs f ⟨some .BitOr, rest⟩ .BitOr := rfl

theorem psF_BitInvert (f : Nat) (rest : List Nat) :
    parseStatementsF (f + 1) ⟨some .BitInvert, rest⟩ =
      atomRhs f ⟨some .BitInvert, rest⟩ .BitInvert := rfl

theorem psF_Equal (f : Nat) (rest : List Nat) :
    parseStatementsF (f + 1) ⟨some .Equal, rest⟩ =
      atomRhs f ⟨some .Equal, rest⟩ .Equal := rfl

theorem psF_GreaterThan (f : Nat) (rest : List Nat) :
    parseStatementsF (f + 1) ⟨some .GreaterThan, rest⟩ =
      atomRhs f ⟨some .GreaterThan, rest⟩ .GreaterThan := rfl

theorem psF_Execute (f : Nat) (rest : List Nat) :
    parseStatementsF (f + 1) ⟨some .Execute, rest⟩ =
      atomRhs f ⟨some .Execute, rest⟩ .Execute := rfl

theorem psF_ExecuteIf (f : Nat) (rest : List Nat) :
    parseStatementsF (f + 1) ⟨some .ExecuteIf, rest⟩ =
      atomRhs f ⟨some .ExecuteIf, rest⟩ .ExecuteIf := rfl

theorem psF_While (f : Nat) (rest : List Nat) :
    parseStatementsF (f + 1) ⟨some .While, rest⟩ =
      atomRhs f ⟨some .While, rest⟩ .While := rfl

theorem psF_Getc (f : Nat) (rest : List Nat) :
    parseStatementsF (f + 1) ⟨some .Getc, rest⟩ =
      atomRhs f ⟨some .Getc, rest⟩ .Getc := rfl

theorem psF_Putc (f : Nat) (rest : List Nat) :
    parseStatementsF (f + 1) ⟨some .Putc, rest⟩ =
      atomRhs f ⟨some .Putc, rest⟩ .Putc := rfl

theorem psF_PrintInt (f : Nat) (rest : List Nat) :
    parseStatementsF (f + 1) ⟨some .PrintInt, rest⟩ =
      atomRhs f ⟨some .PrintInt, rest⟩ .PrintInt := rfl

theorem valBE_snoc (ds : List Nat) (d : Nat) :
    valBE (ds ++ [d]) = 10 * valBE ds + d := by
  simp [valBE, List.foldl_append]

theorem natDigitsBE_val : ∀ f n, n < f → valBE (natDigitsBE f n) = n := by
  intro f
  induction f with
  | zero => intro n h; omega
  | succ f ih =>
    intro n h
    by_cases h10 : n < 10
    · simp [natDigitsBE, h10, valBE]
    · have hdiv : n / 10 < n := Nat.div_lt_self (by omega) (by omega)
      have hf : n / 10 < f := by omega
      rw [natDigitsBE, if_neg h10, valBE_snoc, ih _ hf]
      omega

theorem natDigitsBE_lt10 : ∀ f n d, d ∈ natDigitsBE f n → d < 10 := by
  intro f
  induction f with
  | zero => intro n d h; simp [natDigitsBE] at h
  | succ f ih =>
    intro n d h
    by_cases h10 : n < 10
    · rw [natDigitsBE, if_pos h10] at h
      simp at h
      omega
    · rw [natDigitsBE, if_neg h10] at h
      rcases List.mem_append.mp h with h | h
      · exact ih _ _ h
      · simp at h
        omega

theorem digitChar_inj {d e : Nat} (hd : d < 10) (he : e < 10)
    (h : digitChar d = digitChar e) : d = e := by
  unfold digitChar at h
  interval_cases d <;> interval_cases e <;>
    first | rfl | (exfalso; revert h; decide)

theorem map_digitChar_inj : ∀ ds es : List Nat,
    (∀ d ∈ ds, d < 10) → (∀ d ∈ es, d < 10) →
    ds.map digitChar = es.map digitChar → ds = es := by
  intro ds
  induction ds with
  | nil => intro es _ _ h; cases es <;> simp_all
  | cons d ds ih =>
    intro es hds hes h
    cases es with
    | nil => simp at h
    | cons e es =>
      simp only [List.map_cons, List.cons.injEq] at h
      have h1 : d = e :=
        digitChar_inj (hds d (by simp)) (hes e (by simp)) h.1
      have h2 : ds = es :=
        ih es (fun x hx => hds x (by simp [hx])) (fun x hx => hes x (by simp [hx])) h.2
      rw [h1, h2]

theorem natToString_inj {m n : Nat} (h : natToString m = natToString n) : m = n := by
  unfold natToString at h
  injection h with h
  have hm := map_digitChar_inj _ _
      (fun d hd => natDigitsBE_lt10 _ _ _ hd)
      (fun d hd => natDigitsBE_lt10 _ _ _ hd) h
  have h1 := natDigitsBE_val (m + 1) m (by omega)
  have h2 := natDigitsBE_val (n + 1) n (by omega)
  rw [hm] at h1
  omega

theorem str_append_left_cancel {p a b : String} (h : p ++ a = p ++ b) : a = b := by
  have hd := congrArg String.data h
  simp only [String.data_append] at hd
  exact congrArg String.mk (List.append_cancel_left hd)

theorem strName_inj {j k : Nat} (h : strName j = strName k) : j = k :=
  natToString_inj (str_append_left_cancel h)

/-! ## Claim C1 - quotation deduplication (the `astEqual` early return) -/

/-- Claim C1, evaluated at the input that decides it: the bodies
`[1 2]` and `[1 3]` are NOT structurally equal (they differ in their
second child), yet the compiler lowers both quotes to the SAME hoisted
symbol `@lambda_1` and hoists only one function, because `astEqual`
returns from inside its loop after comparing the first children only.
The claim (distinct names for bodies differing in any child) therefore
fails on the code; the specification itself flags this `return` as an
apparent bug, so the code, not the claim, is at fault. -/
theorem C1_dedup_failing_input :
    parse (units "[1 2][1 3]") =
      some (.ok [.Quote [.Integer 1, .Integer 2], .Quote [.Integer 1, .Integer 3]]) ∧
    astEqualSpec [.Integer 1, .Integer 2] [.Integer 1, .Integer 3] = false ∧
    astEqual [.Integer 1, .Integer 2] [.Integer 1, .Integer 3] = true ∧
    compileProgram [.Quote [.Integer 1, .Integer 2], .Quote [.Integer 1, .Integer 3]] =
    ([],
      ["define void @lambda_1() \x7b\nentry:\ncall void @stack_push_int(i32 1)\ncall void @stack_push_int(i32 2)\nret void\n\x7d"],
      [ "call void @stack_push_quote(void()* @lambda_1)"
      , "call void @stack_push_quote(void()* @lambda_1)"],
      ⟨[([.Integer 1, .Integer 2], "@lambda_1",
         "define void @lambda_1() \x7b\nentry:\ncall void @stack_push_int(i32 1)\ncall void @stack_push_int(i32 2)\nret void\n\x7d")],
       [], 2, 1⟩) :=
  ⟨rfl, rfl, rfl, rfl⟩

/-! ## Claim C4 - integer range -/

/-- Claim C4 fails on the code: the decimal literal `2147483648` is
accepted by the lexer with its exact value, which exceeds `2^31 - 1`,
so not every `Integer` node fits the signed 32-bit range. -/
theorem C4_counterexample :
    tokenize (units "2147483648") = some (.ok [.Integer 2147483648]) ∧
    2147483648 > 2 ^ 31 - 1 :=
  ⟨rfl, by norm_num⟩

/-- Claim C4 as amended: a character literal's value is the code unit
after the quote (hence below `2^16`), but a decimal digit run is parsed
with no range check whatsoever - its `Integer` node carries the exact
value of the run, which may exceed `2^31 - 1`, and the code generator
interpolates that value verbatim into the `i32` push instruction. -/
theorem C4_amended :
    (∀ (c : Nat) (r : List Nat),
      tokNext (39 :: c :: r) = .ok (some (.Integer c), r)) ∧
    tokenize (units "2147483648") = some (.ok [.Integer 2147483648]) ∧
    compileNode (.Integer 2147483648) 1 1 initCompiler =
      (["call void @stack_push_int(i32 2147483648)"], 1, 1, initCompiler) :=
  ⟨fun _ _ => rfl, rfl, rfl⟩

/-! ## Claims C6 and C7 - arithmetic and comparison lowering -/

/-- Claim C6: for each of `Plus`, `Minus`, `Mul`, `Div` the emitted IR
first pops into `%t(t)` (the runtime `@stack_pop_int` returns the top of
the stack, so this is b), then pops into `%t(t+1)` (a, the value pushed
earlier), and combines them with `add`/`sub`/`mul`/`sdiv` with a - the
SECOND pop - as the left operand, pushing the result; so `Minus`
computes `a - b` and `Div` computes `a sdiv b`. -/
theorem C6_basic_op_order (t l : Nat) (c : Compiler) :
    (compileNode .Plus t l c =
      ([ tempName t ++ " = call i32 @stack_pop_int()"
       , tempName (t + 1) ++ " = call i32 @stack_pop_int()"
       , tempName (t + 2) ++ " = " ++ "add" ++ " i32 " ++ tempName (t + 1) ++ ", " ++ tempName t
       , "call void @stack_push_int(i32 " ++ tempName (t + 2) ++ ")" ], t + 3, l, c)) ∧
    (compileNode .Minus t l c =
      ([ tempName t ++ " = call i32 @stack_pop_int()"
       , tempName (t + 1) ++ " = call i32 @stack_pop_int()"
       , tempName (t + 2) ++ " = " ++ "sub" ++ " i32 " ++ tempName (t + 1) ++ ", " ++ tempName t
       , "call void @stack_push_int(i32 " ++ tempName (t + 2) ++ ")" ], t + 3, l, c)) ∧
    (compileNode .Mul t l c =
      ([ tempName t ++ " = call i32 @stack_pop_int()"
       , tempName (t + 1) ++ " = call i32 @stack_pop_int()"
       , tempName (t + 2) ++ " = " ++ "mul" ++ " i32 " ++ tempName (t + 1) ++ ", " ++ tempName t
       , "call void @stack_push_int(i32 " ++ tempName (t + 2) ++ ")" ], t + 3, l, c)) ∧
    (compileNode .Div t l c =
      ([ tempName t ++ " = call i32 @stack_pop_int()"
       , tempName (t + 1) ++ " = call i32 @stack_pop_int()"
       , tempName (t + 2) ++ " = " ++ "sdiv" ++ " i32 " ++ tempName (t + 1) ++ ", " ++ tempName t
       , "call void @stack_push_int(i32 " ++ tempName (t + 2) ++ ")" ], t + 3, l, c)) :=
  ⟨rfl, rfl, rfl, rfl⟩

/-- Claim C7: for `Equal` and `GreaterThan` the emitted IR pops b into
`%t(t)`, pops a into `%t(t+1)`, compares with `icmp eq` / `icmp sgt`
with a as the left operand, sign-extends the `i1` to `i32` (so the
pushed word is -1 when the comparison holds and 0 otherwise) and pushes
it. -/
theorem C7_cmp_order (t l : Nat) (c : Compiler) :
    (compileNode .Equal t l c =
      ([ tempName t ++ " = call i32 @stack_pop_int()"
       , tempName (t + 1) ++ " = call i32 @stack_pop_int()"
       , tempName (t + 2) ++ " = icmp " ++ "eq" ++ " i32 " ++ tempName (t + 1) ++ ", " ++ tempName t
       , tempName (t + 3) ++ " = sext i1 " ++ tempName (t + 2) ++ " to i32"
       , "call void @stack_push_int(i32 " ++ tempName (t + 3) ++ ")" ], t + 4, l, c)) ∧
    (compileNode .GreaterThan t l c =
      ([ tempName t ++ " = call i32 @stack_pop_int()"
       , tempName (t + 1) ++ " = call i32 @stack_pop_int()"
       , tempName (t + 2) ++ " = icmp " ++ "sgt" ++ " i32 " ++ tempName (t + 1) ++ ", " ++ tempName t
       , tempName (t + 3) ++ " = sext i1 " ++ tempName (t + 2) ++ " to i32"
       , "call void @stack_push_int(i32 " ++ tempName (t + 3) ++ ")" ], t + 4, l, c)) :=
  ⟨rfl, rfl⟩

/-! ## Fuel monotonicity of the parser -/

theorem atomRhs_mono {f g : Nat}
    (hrec : ∀ s r, parseStatementsF f s = some r → parseStatementsF g s = some r)
    (s : PState) (node : AstNode) (r : Except Err (List AstNode × PState))
    (h : atomRhs f s node = some r) : atomRhs g s node = some r := by
  unfold atomRhs at h ⊢
  cases hX : doNext s with
  | error e => simp only [hX] at h ⊢; exact h
  | ok s1 =>
    simp only [hX] at h ⊢
    cases hY : parseStatementsF f s1 with
    | none => simp only [hY] at h; exact Option.noConfusion h
    | some v =>
      simp only [hY] at h
      simp only [hrec s1 v hY]
      exact h

/-- A successful parse stays the same under any larger fuel. -/
theorem psF_mono : ∀ f s r, parseStatementsF f s = some r →
    ∀ g, f ≤ g → parseStatementsF g s = some r := by
  intro f
  induction f with
  | zero => intro s r h g _; rw [psF_zero] at h; exact absurd h (by simp)
  | succ f ih =>
    intro s r h g hg
    obtain ⟨g, rfl⟩ : ∃ g', g = g' + 1 := ⟨g - 1, by omega⟩
    have hrec : ∀ s' r', parseStatementsF f s' = some r' → parseStatementsF g s' = some r' :=
      fun s' r' h' => ih s' r' h' g (by omega)
    obtain ⟨cur, rest⟩ := s
    cases cur with
    | none => rw [psF_none] at h ⊢; exact h
    | some tok =>
      cases tok with
      | CloseBracket => rw [psF_Close] at h ⊢; exact h
      | Asm => rw [psF_Asm] at h ⊢; exact h
      | Flush =>
        rw [psF_Flush] at h ⊢
        cases hX : doNext ⟨some .Flush, rest⟩ with
        | error e => simp only [hX] at h ⊢; exact h
        | ok s1 =>
          simp only [hX] at h ⊢
          exact hrec s1 r h
      | OpenBracket =>
        rw [psF_Open] at h ⊢
        cases hX : doNext ⟨some .OpenBracket, rest⟩ with
        | error e => simp only [hX] at h ⊢; exact h
        | ok s1 =>
          simp only [hX] at h ⊢
          cases hY : parseStatementsF f s1 with
          | none => simp only [hY] at h; exact Option.noConfusion h
          | some v =>
            simp only [hY] at h
            simp only [hrec s1 v hY]
            cases v with
            | error e => exact h
            | ok p =>
              obtain ⟨body, s2⟩ := p
              cases hZ : doNext s2 with
              | error e => simp only [hZ] at h ⊢; exact h
              | ok s3 =>
                simp only [hZ] at h ⊢
                cases hW : parseStatementsF f s3 with
                | none => simp only [hW] at h; exact Option.noConfusion h
                | some w =>
                  simp only [hW] at h
                  simp only [hrec s3 w hW]
                  exact h
      | Variable v => rw [psF_Variable] at h ⊢; exact atomRhs_mono hrec _ _ _ h
      | String str => rw [psF_String] at h ⊢; exact atomRhs_mono hrec _ _ _ h
      | Integer n => rw [psF_Integer] at h ⊢; exact atomRhs_mono hrec _ _ _ h
      | GetVar => rw [psF_GetVar] at h ⊢; exact atomRhs_mono hrec _ _ _ h
      | SetVar => rw [psF_SetVar] at h ⊢; exact atomRhs_mono hrec _ _ _ h
      | Dup => rw [psF_Dup] at h ⊢; exact atomRhs_mono hrec _ _ _ h
      | Discard => rw [psF_Discard] at h ⊢; exact atomRhs_mono hrec _ _ _ h
      | Swap => rw [psF_Swap] at h ⊢; exact atomRhs_mono hrec _ _ _ h
      | Rotate => rw [psF_Rotate] at h ⊢; exact atomRhs_mono hrec _ _ _ h
      | Take => rw [psF_Take] at h ⊢; exact atomRhs_mono hrec _ _ _ h
      | Plus => rw [psF_Plus] at h ⊢; exact atomRhs_mono hrec _ _ _ h
      | Minus => rw [psF_Minus] at h ⊢; exact atomRhs_mono hrec _ _ _ h
      | Mul => rw [psF_Mul] at h ⊢; exact atomRhs_mono hrec _ _ _ h
      | Div => rw [psF_Div] at h ⊢; exact atomRhs_mono hrec _ _ _ h
      | Negate => rw [psF_Negate] at h ⊢; exact atomRhs_mono hrec _ _ _ h
      | BitAnd => rw [psF_BitAnd] at h ⊢; exact atomRhs_mono hrec _ _ _ h
      | BitOr => rw [psF_BitOr] at h ⊢; exact atomRhs_mono hrec _ _ _ h
      | BitInvert => rw [psF_BitInvert] at h ⊢; exact atomRhs_mono hrec _ _ _ h
      | Equal => rw [psF_Equal] at h ⊢; exact atomRhs_mono hrec _ _ _ h
      | GreaterThan => rw [psF_GreaterThan] at h ⊢; exact atomRhs_mono hrec _ _ _ h
      | Execute => rw [psF_Execute] at h ⊢; exact atomRhs_mono hrec _ _ _ h
      | ExecuteIf => rw [psF_ExecuteIf] at h ⊢; exact atomRhs_mono hrec _ _ _ h
      | While => rw [psF_While] at h ⊢; exact atomRhs_mono hrec _ _ _ h
      | Getc => rw [psF_Getc] at h ⊢; exact atomRhs_mono hrec _ _ _ h
      | Putc => rw [psF_Putc] at h ⊢; exact atomRhs_mono hrec _ _ _ h
      | PrintInt => rw [psF_PrintInt] at h ⊢; exact atomRhs_mono hrec _ _ _ h

/-! ## Claim C2 - unclosed bracket at end of input -/

/-- Claim C2 fails on the code: a stream whose `OpenBracket` is never
closed does NOT make parsing fail - the source `[1` parses successfully
to the quote of the truncated body.  (`parseStatements` simply exits its
loop when the lookahead becomes `null`, at every nesting depth.) -/
theorem C2_counterexample :
    parse (units "[1") = some (.ok [.Quote [.Integer 1]]) := rfl

/-- Claim C2 as amended: reaching end of input inside an unclosed
bracket is NOT an error; the parser treats end-of-input exactly like a
closing bracket for every open quote.  Prefixing `[` to any source whose
parse consumes all input yields a successful parse of the single quote
of that source's statement list. -/
theorem C2_amended (x : List Nat) (stmts : List AstNode)
    (h : parseWithRest x = some (.ok (stmts, ⟨none, []⟩))) :
    parseWithRest (91 :: x) = some (.ok ([.Quote stmts], ⟨none, []⟩)) := by
  unfold parseWithRest at h ⊢
  cases hD : doNext ⟨none, x⟩ with
  | error e => rw [hD] at h; exact absurd h (by simp)
  | ok s =>
    rw [hD] at h
    show parseStatementsF (pfuel (91 :: x)) ⟨some .OpenBracket, x⟩ = _
    have hm : psfuelAux x = pfuel (91 :: x) := by simp [pfuel, psfuelAux]; omega
    rw [← hm]
    rw [psfuelAux, psF_Open]
    have hsame : doNext ⟨some Token.OpenBracket, x⟩ = doNext ⟨none, x⟩ := rfl
    rw [hsame, hD]
    have h1 : parseStatementsF (pfuel x + 1) s = some (.ok (stmts, ⟨none, []⟩)) :=
      psF_mono _ _ _ h _ (by omega)
    simp only [h1]
    have h2 : doNext ⟨none, ([] : List Nat)⟩ = .ok ⟨none, []⟩ := rfl
    rw [h2]
    have h3 : parseStatementsF (pfuel x + 1) ⟨none, []⟩ = some (.ok ([], ⟨none, []⟩)) :=
      psF_none _ _
    simp only [h3]

/-- A closed instance of the amended claim C2: the body source `1`
parses to `[Integer 1]` consuming everything, hence `[1` parses to the
quote of it. -/
theorem C2_amended_witness :
    parseWithRest (91 :: units "1") = some (.ok ([.Quote [.Integer 1]], ⟨none, []⟩)) :=
  C2_amended (units "1") [.Integer 1] rfl

/-! ## Claim C3 - the `Asm` form -/

/-- Claim C3 fails on the code at one point: when `Asm` is the LAST
token, the parser does not produce the `Syntax error: Expected a short`
message - the JavaScript reads `.type` of the `null` lookahead and the
engine raises a `TypeError` instead. -/
theorem C3_counterexample :
    parse (units "`") = some (.error .typeError) ∧
    Err.typeError ≠ Err.error "Syntax error: Expected a short" :=
  ⟨rfl, by simp⟩

/-- Claim C3 as amended, a complete case analysis of a parse whose first
token is `Asm` (code unit 96 is the backtick): if pulling the next token
raises a lex error, that error propagates; if the stream is exhausted,
the `TypeError` from reading a property of `null` is raised; if the next
token is an `Integer`, one FURTHER token is pulled (a lex error there
propagates first) and then `Assembly is not supported` is thrown; any
other token draws `Syntax error: Expected a short`. -/
theorem C3_amended (rest : List Nat) :
    parseWithRest (96 :: rest) =
      some (match tokNext rest with
        | .error e => .error e
        | .ok (none, _) => .error .typeError
        | .ok (some (.Integer _), r) =>
          (match tokNext r with
           | .error e => .error e
           | .ok _ => .error (.error "Assembly is not supported"))
        | .ok (some _, _) => .error (.error "Syntax error: Expected a short")) := by
  show parseStatementsF (pfuel (96 :: rest)) ⟨some .Asm, rest⟩ = _
  have hm : pfuel (96 :: rest) = (2 * rest.length + 3) + 1 := by simp [pfuel]; omega
  rw [hm, psF_Asm]
  have hsame : doNext ⟨some Token.Asm, rest⟩ = doNext ⟨none, rest⟩ := rfl
  rw [hsame, doNext_eq]
  cases hT : tokNext rest with
  | error e => simp
  | ok p =>
    obtain ⟨t, r⟩ := p
    cases t with
    | none => simp
    | some tok =>
      have hsame2 : doNext ⟨some tok, r⟩ = doNext ⟨none, r⟩ := rfl
      cases tok
      all_goals simp only [hsame2, doNext_eq]
      all_goals try cases tokNext r
      all_goals simp

/-! ## Claim C5 - the skipped-character class -/

/-- Claim C5 fails on the code: NBSP (code unit 160) is none of the six
ASCII whitespace characters, does not start a comment, string, character
literal, digit run or variable, and is not in the symbol table - by the
claim, lexing must fail with `Invalid character` - yet JavaScript `\s`
matches it, so the lexer silently skips it and tokenizes ` ` to the
empty stream. -/
theorem C5_counterexample :
    tokenize [160] = some (.ok []) ∧ asciiWhitespace 160 = false :=
  ⟨rfl, rfl⟩

/-- Claim C5 as amended: the silently skipped class is exactly the
ECMAScript `\s` class (the six ASCII whitespace characters PLUS NBSP,
Ogham space mark, U+2000-U+200A, LS, PS, NNBSP, MMSP, ideographic space
and the BOM) - a `\s` character in front of the input is dropped without
effect on the token produced - and every other character that does not
start a comment, character literal, string, digit run or variable and
misses the symbol table makes the pull fail with `Invalid character: X`. -/
theorem C5_amended (c : Nat) (rest : List Nat) :
    (jsWhitespace c = true → tokNext (c :: rest) = tokNext rest) ∧
    (jsWhitespace c = false → c ≠ 123 → c ≠ 39 → c ≠ 34 → isDig c = false →
      ¬(97 ≤ c ∧ c ≤ 122) → symLookup c = none →
      tokNext (c :: rest) = .error (.error ("Invalid character: " ++ unitStr c))) := by
  constructor
  · intro h1
    unfold tokNext
    have : skipAll false (c :: rest) = skipAll false rest := by
      rw [skipAll, if_pos h1]
    rw [this]
  · intro h1 h2 h3 h4 h5 h6 h7
    unfold tokNext
    have hs : skipAll false (c :: rest) = .ok (c :: rest) := by
      rw [skipAll, if_neg (by simp [h1]), if_neg (by simpa using h2)]
    simp only [hs]
    unfold tokDispatch
    simp [h3, h4, h5, h6, h7]

/-- A closed instance of the amended claim C5: the euro sign (U+20AC) is
not whitespace and not in any token class, so lexing fails with
`Invalid character`, and NBSP in front of a digit is skipped silently. -/
theorem C5_amended_witness :
    tokNext (160 :: units "7") = tokNext (units "7") ∧
    tokNext (8364 :: []) = .error (.error ("Invalid character: " ++ unitStr 8364)) :=
  ⟨(C5_amended 160 (units "7")).1 rfl,
   (C5_amended 8364 []).2 rfl (by simp) (by simp) (by simp) rfl (by simp) rfl⟩

/-! ## Claim C9 - the derived output filename -/

/-- Claim C9 fails on the code for dot-free filenames: `/\..+$/` does
not match `README`, so `replace` returns the input unchanged - the
derived output name equals the input and does not end in `.ll`. -/
theorem C9_counterexample :
    replaceExtLl "README".data = "README".data := rfl

/-- Claim C9 as amended: when the input contains a dot whose suffix is
non-empty and free of line terminators, the leftmost such dot and
everything after it are replaced by `.ll` (so `a.b.c` becomes `a.ll` -
ALL extensions after the first dot are stripped); when the input
contains no dot at all, the name is returned unchanged, so it neither
ends in `.ll` nor differs from the input. -/
theorem C9_amended :
    (∀ name ext : List Char, ('.' ∉ name) → ext ≠ [] → ext.all notLineTerm = true →
      replaceExtLl (name ++ '.' :: ext) = name ++ ('.' :: 'l' :: 'l' :: [])) ∧
    (∀ s : List Char, ('.' ∉ s) → replaceExtLl s = s) := by
  constructor
  · intro name
    induction name with
    | nil =>
      intro ext hdot hne hall
      simp only [List.nil_append]
      rw [replaceExtLl, if_pos ⟨rfl, hne, hall⟩]
    | cons ch name ih =>
      intro ext hdot hne hall
      have hch : ch ≠ '.' := fun h => hdot (by simp [h])
      simp only [List.cons_append]
      rw [replaceExtLl, if_neg (by simp [hch])]
      rw [ih ext (fun h => hdot (by simp [h])) hne hall]
  · intro s
    induction s with
    | nil => intro _; rfl
    | cons ch s ih =>
      intro hdot
      have hch : ch ≠ '.' := fun h => hdot (by simp [h])
      rw [replaceExtLl, if_neg (by simp [hch])]
      rw [ih (fun h => hdot (by simp [h]))]

/-- A closed instance of the amended claim C9: `a.b.c` maps to `a.ll`
(the first dot wins, every later extension is stripped with it) and the
dot-free `version2` maps to itself. -/
theorem C9_amended_witness :
    replaceExtLl "a.b.c".data = "a.ll".data ∧
    replaceExtLl "version2".data = "version2".data :=
  ⟨(C9_amended.1 "a".data "b.c".data (by decide) (by decide) (by decide)),
   (C9_amended.2 "version2".data (by decide))⟩

/-! ## Claim C8 - string interning -/

theorem internAll_length : ∀ (texts : List (List Nat)) (c : Compiler),
    (internAll texts c).1.length = texts.length := by
  intro texts
  induction texts with
  | nil => intro c; rfl
  | cons s ss ih => intro c; simp [internAll, ih]

/-- After `#getConstString(s)` the map sends `s` to the returned name. -/
theorem getConstString_lookup (s : List Nat) (c : Compiler) :
    lookupName (getConstString s c).2 s = some (getConstString s c).1 := by
  cases hf2 : c.strings.find? (fun p => p.1 == s) with
  | some p => simp [lookupName, getConstString, hf2]
  | none => simp [lookupName, getConstString, hf2, List.find?_append]

/-- Calling `#getConstString` never disturbs an existing entry. -/
theorem getConstString_preserve {s' : List Nat} {n : String} (s : List Nat) (c : Compiler)
    (h : lookupName c s' = some n) : lookupName (getConstString s c).2 s' = some n := by
  unfold lookupName at h
  cases hf : c.strings.find? (fun p => p.1 == s') with
  | none => rw [hf] at h; exact absurd h (by simp)
  | some p =>
    rw [hf] at h
    cases hg : c.strings.find? (fun p => p.1 == s) with
    | some q => simp [lookupName, getConstString, hg, hf, h]
    | none => simp [lookupName, getConstString, hg, List.find?_append, hf, h]

/-- Calling `#getConstString` preserves the intern-map invariant. -/
theorem getConstString_WF {c : Compiler} (s : List Nat) (h : WFstrings c) :
    WFstrings (getConstString s c).2 := by
  obtain ⟨hpos, hbound, hnodup⟩ := h
  unfold getConstString
  cases hg : c.strings.find? (fun p => p.1 == s) with
  | some name => exact ⟨hpos, hbound, hnodup⟩
  | none =>
    simp only [hg, Option.map_none']
    refine ⟨by show 1 ≤ c.strId + 1; omega, ?_, ?_⟩
    · intro p hp
      simp only [List.mem_append, List.mem_singleton] at hp
      rcases hp with hp | hp
      · obtain ⟨k, h1, h2, h3⟩ := hbound p hp
        exact ⟨k, h1, by show k < c.strId + 1; omega, h3⟩
      · exact ⟨c.strId, hpos, by show c.strId < c.strId + 1; omega, by rw [hp]⟩
    · rw [List.map_append, List.nodup_append]
      refine ⟨hnodup, by simp, ?_⟩
      intro x hx
      simp only [List.mem_map] at hx
      obtain ⟨p, hp, hxe⟩ := hx
      obtain ⟨k, h1, h2, h3⟩ := hbound p hp
      simp only [List.map_cons, List.map_nil, List.mem_singleton]
      intro hxn
      rw [hxn] at hxe
      rw [h3] at hxe
      have := strName_inj hxe
      omega

/-- With distinct recorded names, a name determines its literal. -/
theorem lookupName_inj {c : Compiler} {s1 s2 : List Nat} {n : String}
    (h : WFstrings c) (h1 : lookupName c s1 = some n) (h2 : lookupName c s2 = some n) :
    s1 = s2 := by
  obtain ⟨_, _, hnodup⟩ := h
  unfold lookupName at h1 h2
  cases hf1 : c.strings.find? (fun p => p.1 == s1) with
  | none => rw [hf1] at h1; exact absurd h1 (by simp)
  | some p =>
    cases hf2 : c.strings.find? (fun p => p.1 == s2) with
    | none => rw [hf2] at h2; exact absurd h2 (by simp)
    | some q =>
      rw [hf1] at h1
      rw [hf2] at h2
      simp only [Option.map_some'] at h1 h2
      have hpq : p = q := by
        apply List.inj_on_of_nodup_map hnodup
          (List.mem_of_find?_eq_some hf1) (List.mem_of_find?_eq_some hf2)
        rw [Option.some.injEq] at h1 h2
        rw [h1, h2]
      have hp1 : p.1 = s1 := by
        have := List.find?_some hf1
        simpa using this
      have hq1 : q.1 = s2 := by
        have := List.find?_some hf2
        simpa using this
      rw [← hp1, ← hq1, hpq]

/-- Interning a batch preserves the invariant and leaves every recorded
entry in place. -/
theorem internAll_preserve : ∀ (texts : List (List Nat)) (c : Compiler)
    {s' : List Nat} {n : String}, lookupName c s' = some n →
    lookupName (internAll texts c).2 s' = some n := by
  intro texts
  induction texts with
  | nil => intro c s' n h; exact h
  | cons s ss ih =>
    intro c s' n h
    exact ih _ (getConstString_preserve s c h)

theorem internAll_WF : ∀ (texts : List (List Nat)) (c : Compiler),
    WFstrings c → WFstrings (internAll texts c).2 := by
  intro texts
  induction texts with
  | nil => intro c h; exact h
  | cons s ss ih => intro c h; exact ih _ (getConstString_WF s h)

/-- In the final state, the i-th returned name is what the final map
records for the i-th literal. -/
theorem internAll_lookup : ∀ (texts : List (List Nat)) (c : Compiler) (i : Nat)
    (hi : i < texts.length),
    lookupName (internAll texts c).2 (texts.get ⟨i, hi⟩) = (internAll texts c).1[i]? := by
  intro texts
  induction texts with
  | nil => intro c i hi; simp at hi
  | cons s ss ih =>
    intro c i hi
    cases i with
    | zero =>
      simp only [internAll, List.get]
      have h0 := getConstString_lookup s c
      have := internAll_preserve ss (getConstString s c).2 h0
      simpa using this
    | succ i =>
      simp only [internAll, List.get]
      have := ih (getConstString s c).2 i (by simpa using hi)
      simpa using this

set_option maxHeartbeats 1000000 in
mutual

/-- Compiling one node preserves the intern-map invariant (it touches
the map only through `#getConstString`, and hoisting only copies the
map through the recursive body compilation). -/
theorem compileNode_WF : ∀ (node : AstNode) (t l : Nat) (c : Compiler),
    WFstrings c → WFstrings (compileNode node t l c).2.2.2
  | .Variable _, _, _, _, h => h
  | .String s, _, _, c, h => getConstString_WF s h
  | .Integer _, _, _, _, h => h
  | .Quote body, t, l, c, h => by
    unfold compileNode
    cases hg : (c.functions.find? (fun fn => astEqual body fn.1)).map (fun fn => fn.2.1) with
    | some name => simpa [hg] using h
    | none =>
      simp only [hg]
      have h1 : WFstrings { c with lambdaId := c.lambdaId + 1 } := h
      exact compileSeq_WF body 1 1 _ h1
  | .GetVar, _, _, _, h => h
  | .SetVar, _, _, _, h => h
  | .Dup, _, _, _, h => h
  | .Discard, _, _, _, h => h
  | .Swap, _, _, _, h => h
  | .Rotate, _, _, _, h => h
  | .Take, _, _, _, h => h
  | .Plus, _, _, _, h => h
  | .Minus, _, _, _, h => h
  | .Mul, _, _, _, h => h
  | .Div, _, _, _, h => h
  | .Negate, _, _, _, h => h
  | .BitAnd, _, _, _, h => h
  | .BitOr, _, _, _, h => h
  | .BitInvert, _, _, _, h => h
  | .Equal, _, _, _, h => h
  | .GreaterThan, _, _, _, h => h
  | .Execute, _, _, _, h => h
  | .ExecuteIf, _, _, _, h => h
  | .While, _, _, _, h => h
  | .Getc, _, _, _, h => h
  | .Putc, _, _, _, h => h
  | .PrintInt, _, _, _, h => h

/-- Compiling a statement sequence preserves the intern-map invariant. -/
theorem compileSeq_WF : ∀ (nodes : List AstNode) (t l : Nat) (c : Compiler),
    WFstrings c → WFstrings (compileSeq nodes t l c).2.2.2
  | [], _, _, _, h => h
  | node :: rest, t, l, c, h =>
    compileSeq_WF rest _ _ _ (compileNode_WF node t l c h)

end

/-- Claim C8: (i) the fresh compiler state satisfies the intern-map
invariant and (ii) every state produced by compiling any statement
sequence from an invariant state is again invariant; (iii) from any
invariant state, two string literals handed to `#getConstString` (in any
order, any number of calls apart) receive the same `@str_K` name if and
only if their code-unit text is identical; and (iv) each emitted
constant line has type `[N x i8]` with `N` equal to the UTF-8 byte count
of the literal plus one (the appended `\00` terminator). -/
theorem C8_intern_soundness :
    WFstrings initCompiler ∧
    (∀ (nodes : List AstNode) (t l : Nat) (c : Compiler),
      WFstrings c → WFstrings (compileSeq nodes t l c).2.2.2) ∧
    (∀ (c : Compiler) (texts : List (List Nat)), WFstrings c →
      ∀ i j (hi : i < texts.length) (hj : j < texts.length),
        ((internAll texts c).1[i]? = (internAll texts c).1[j]? ↔
          texts.get ⟨i, hi⟩ = texts.get ⟨j, hj⟩)) ∧
    (∀ (str : List Nat) (name : String),
      constLine str name =
        name ++ " = private unnamed_addr constant [" ++
          natToString ((utf16ToUtf8 str).length + 1) ++ " x i8] c\"" ++
          (encode_string str).2 ++ "\"") := by
  refine ⟨⟨by simp [initCompiler], by simp [initCompiler], by simp [initCompiler]⟩,
    fun nodes t l c h => compileSeq_WF nodes t l c h, ?_, fun str name => rfl⟩
  intro c texts hc i j hi hj
  have hlen := internAll_length texts c
  have hWFf := internAll_WF texts c hc
  have hli := internAll_lookup texts c i hi
  have hlj := internAll_lookup texts c j hj
  constructor
  · intro h
    obtain ⟨n, hn⟩ : ∃ n, (internAll texts c).1[i]? = some n :=
      ⟨(internAll texts c).1.get ⟨i, by omega⟩, List.getElem?_eq_getElem (by omega)⟩
    exact lookupName_inj hWFf (by rw [hli, hn]) (by rw [hlj, ← h, hn])
  · intro h
    rw [← hli, ← hlj, h]

/-- A closed instance of claim C8: interning `Hi`, `Ho`, `Hi` from the
fresh state yields `@str_1`, `@str_2`, `@str_1` - the repeated literal
shares its symbol, the distinct one gets a fresh symbol - and the
emitted constant for `Hi` has length 3 = 2 UTF-8 bytes + 1. -/
theorem C8_intern_witness :
    (internAll [units "Hi", units "Ho", units "Hi"] initCompiler).1 =
      ["@str_1", "@str_2", "@str_1"] ∧
    ((internAll [units "Hi", units "Ho", units "Hi"] initCompiler).1[0]? =
        (internAll [units "Hi", units "Ho", units "Hi"] initCompiler).1[1]? ↔
      ([units "Hi", units "Ho", units "Hi"].get ⟨0, by decide⟩ =
        [units "Hi", units "Ho", units "Hi"].get ⟨1, by decide⟩)) ∧
    constLine (units "Hi") "@str_1" =
      "@str_1 = private unnamed_addr constant [3 x i8] c\"\\48\\69\\00\"" :=
  ⟨rfl,
   C8_intern_soundness.2.2.1 initCompiler [units "Hi", units "Ho", units "Hi"]
     C8_intern_soundness.1 0 1 (by decide) (by decide),
   rfl⟩

/-! ## Claim C10 - laziness: a top-level CloseBracket seals the parse

The parser pulls the tokenizer only as far as the statement list it
returns; everything below shows that appending an arbitrary suffix after
the close bracket that ends the top-level parse changes neither the
result nor the error behaviour, because no pull ever looks at the
suffix. -/

theorem dropWhile_ext (p : Nat → Bool) :
    ∀ (xs : List Nat) (y : Nat) (r : List Nat), xs.dropWhile p = y :: r →
    ∀ q, (xs ++ q).dropWhile p = y :: (r ++ q) := by
  intro xs
  induction xs with
  | nil => intro y r h q; simp at h
  | cons a t ih =>
    intro y r h q
    by_cases hp : p a
    · rw [List.dropWhile_cons_of_pos hp] at h
      rw [List.cons_append, List.dropWhile_cons_of_pos hp]
      exact ih y r h q
    · rw [List.dropWhile_cons_of_neg hp] at h
      injection h with h1 h2
      rw [List.cons_append, List.dropWhile_cons_of_neg hp, h1, h2]

theorem takeWhile_ext (p : Nat → Bool) :
    ∀ (xs : List Nat) (y : Nat) (r : List Nat), xs.dropWhile p = y :: r →
    ∀ q, (xs ++ q).takeWhile p = xs.takeWhile p := by
  intro xs
  induction xs with
  | nil => intro y r h q; simp at h
  | cons a t ih =>
    intro y r h q
    by_cases hp : p a
    · rw [List.dropWhile_cons_of_pos hp] at h
      rw [List.cons_append, List.takeWhile_cons_of_pos hp, List.takeWhile_cons_of_pos hp,
        ih y r h q]
    · rw [List.cons_append, List.takeWhile_cons_of_neg hp, List.takeWhile_cons_of_neg hp]

theorem skipAll_ok_ext : ∀ (xs : List Nat) (b : Bool) (c : Nat) (rest : List Nat),
    skipAll b xs = .ok (c :: rest) → ∀ q, skipAll b (xs ++ q) = .ok (c :: (rest ++ q)) := by
  intro xs
  induction xs with
  | nil =>
    intro b c rest h q
    cases b <;> simp [skipAll] at h
  | cons a t ih =>
    intro b c rest h q
    cases b with
    | true =>
      rw [skipAll] at h
      rw [List.cons_append, skipAll]
      by_cases ha : a == 125
      · rw [if_pos ha] at h; rw [if_pos ha]; exact ih false c rest h q
      · rw [if_neg ha] at h; rw [if_neg ha]; exact ih true c rest h q
    | false =>
      rw [skipAll] at h
      rw [List.cons_append, skipAll]
      by_cases hw : jsWhitespace a
      · rw [if_pos hw] at h; rw [if_pos hw]; exact ih false c rest h q
      · rw [if_neg hw] at h
        rw [if_neg hw]
        by_cases hb : a == 123
        · rw [if_pos hb] at h; rw [if_pos hb]; exact ih true c rest h q
        · rw [if_neg hb] at h
          rw [if_neg hb]
          injection h with h
          injection h with h1 h2
          rw [h1, h2]

theorem tokDispatch_some {c : Nat} {rest : List Nat} {t : Option Token} {r : List Nat}
    (h : tokDispatch c rest = .ok (t, r)) : ∃ tk, t = some tk := by
  unfold tokDispatch at h
  split_ifs at h
  · unfold nextCharTok at h
    cases rest with
    | nil => simp at h
    | cons c0 r0 => simp at h; exact ⟨_, h.1.symm⟩
  · unfold nextStringTok at h
    cases hd : rest.dropWhile (fun u => u != 34) with
    | nil => rw [hd] at h; simp at h
    | cons y r0 => rw [hd] at h; simp at h; exact ⟨_, h.1.symm⟩
  · unfold nextNumber at h
    simp at h
    exact ⟨_, h.1.symm⟩
  · simp at h
    exact ⟨_, h.1.symm⟩
  · cases hs : symLookup c with
    | some tk => rw [hs] at h; simp at h; exact ⟨_, h.1.symm⟩
    | none => rw [hs] at h; simp at h

theorem tokNext_done {x r : List Nat} (h : tokNext x = .ok (none, r)) :
    r = [] ∧ skipAll false x = .ok [] := by
  unfold tokNext at h
  cases hs : skipAll false x with
  | error e => simp only [hs] at h; simp at h
  | ok l =>
    cases l with
    | nil => simp only [hs] at h; simp at h; exact ⟨h, rfl⟩
    | cons c rest =>
      simp only [hs] at h
      obtain ⟨tk, htk⟩ := tokDispatch_some h
      exact absurd htk (by simp)

theorem tokNext_ext {x : List Nat} {t : Token} {r : List Nat}
    (h : tokNext x = .ok (some t, r)) (hc : r ≠ [] ∨ t = .CloseBracket) (q : List Nat) :
    tokNext (x ++ q) = .ok (some t, r ++ q) := by
  unfold tokNext at h ⊢
  cases hs : skipAll false x with
  | error e => simp only [hs] at h; simp at h
  | ok l =>
    cases l with
    | nil => simp only [hs] at h; simp at h
    | cons c rest =>
      simp only [hs] at h
      simp only [skipAll_ok_ext x false c rest hs q]
      unfold tokDispatch at h ⊢
      split_ifs at h ⊢ with h39 h34 hdig hvar
      · -- character literal: consumes exactly one unit after the quote
        unfold nextCharTok at h ⊢
        cases rest with
        | nil => simp at h
        | cons c0 r0 =>
          simp at h
          simp [List.cons_append, h.1.symm, h.2]
      · -- string literal: extent fixed by the closing quote inside x
        unfold nextStringTok at h ⊢
        cases hd : rest.dropWhile (fun u => u != 34) with
        | nil => rw [hd] at h; simp at h
        | cons y r0 =>
          rw [hd] at h
          simp at h
          rw [dropWhile_ext _ rest y r0 hd q, takeWhile_ext _ rest y r0 hd q]
          simp [h.1.symm, h.2]
      · -- digit run: must have stopped at a non-digit inside x
        unfold nextNumber at h ⊢
        simp at h
        have hr : r ≠ [] := by
          rcases hc with hc | hc
          · exact hc
          · rw [hc] at h; exact absurd h.1.symm (by simp)
        have h2 := h.2
        rw [← h2] at hr
        cases hd : (c :: rest).dropWhile isDig with
        | nil => rw [hd] at hr; exact absurd rfl hr
        | cons y r0 =>
          rw [show c :: (rest ++ q) = (c :: rest) ++ q from rfl]
          rw [dropWhile_ext _ (c :: rest) y r0 hd q, takeWhile_ext _ (c :: rest) y r0 hd q]
          rw [hd] at h2
          simp [h.1.symm, ← h2, hd]
      · -- variable: one unit
        simp at h
        simp [h.1.symm, h.2]
      · -- symbol table: one unit
        cases hsym : symLookup c with
        | some tk =>
          rw [hsym] at h
          simp at h
          simp [h.1.symm, h.2]
        | none => rw [hsym] at h; simp at h

theorem psF_succ_atom : ∀ (f : Nat) (tok : Token) (rest : List Nat) (node : AstNode),
    tokAtom tok = some node →
    parseStatementsF (f + 1) ⟨some tok, rest⟩ = atomRhs f ⟨some tok, rest⟩ node := by
  intro f tok rest node h
  cases tok <;> simp [tokAtom] at h <;> rw [← h] <;> rfl

theorem atomRhs_empty {f : Nat} {cur : Option Token} {node : AstNode}
    {st : List AstNode} {s' : PState}
    (h : atomRhs f ⟨cur, []⟩ node = some (.ok (st, s'))) : s' = ⟨none, []⟩ := by
  unfold atomRhs at h
  have hD : doNext ⟨cur, ([] : List Nat)⟩ = .ok ⟨none, []⟩ := rfl
  simp only [hD] at h
  cases f with
  | zero => simp only [psF_zero] at h; exact Option.noConfusion h
  | succ g =>
    simp only [psF_none] at h
    simp at h
    exact h.2.symm

/-- The `Asm` branch never returns a successful parse. -/
theorem psF_Asm_no_ok {f : Nat} {rest : List Nat} {st : List AstNode} {s' : PState}
    (h : parseStatementsF f ⟨some .Asm, rest⟩ = some (.ok (st, s'))) : False := by
  cases f with
  | zero => simp only [psF_zero] at h; exact Option.noConfusion h
  | succ g =>
    rw [psF_Asm] at h
    rw [doNext_eq] at h
    cases hT : tokNext rest with
    | error e => simp only [hT] at h; simp at h
    | ok p =>
      obtain ⟨t1, r1⟩ := p
      simp only [hT] at h
      cases t1 with
      | none => simp at h
      | some tok =>
        cases tok <;> simp at h
        rw [doNext_eq] at h
        cases hT2 : tokNext r1 with
        | error e => simp only [hT2] at h; simp at h
        | ok p2 => simp only [hT2] at h; simp at h

/-- A parse that starts on a non-`CloseBracket` token with the input
exhausted can only finish in the terminal state. -/
theorem psF_aux_empty : ∀ (f : Nat) (t : Token), t ≠ .CloseBracket →
    ∀ (st : List AstNode) (s' : PState),
    parseStatementsF f ⟨some t, []⟩ = some (.ok (st, s')) → s' = ⟨none, []⟩ := by
  intro f t ht st s' h
  cases f with
  | zero => simp only [psF_zero] at h; exact Option.noConfusion h
  | succ g =>
    cases htok : tokAtom t with
    | some node =>
      rw [psF_succ_atom g t [] node htok] at h
      exact atomRhs_empty h
    | none =>
      cases t
      case CloseBracket => exact absurd rfl ht
      case Asm => exact absurd h psF_Asm_no_ok
      case OpenBracket =>
        rw [psF_Open] at h
        have hD : doNext ⟨some Token.OpenBracket, ([] : List Nat)⟩ = .ok ⟨none, []⟩ := rfl
        simp only [hD] at h
        cases g with
        | zero => simp only [psF_zero] at h; exact Option.noConfusion h
        | succ g2 =>
          simp only [psF_none] at h
          have hD2 : doNext ⟨none, ([] : List Nat)⟩ = .ok ⟨none, []⟩ := rfl
          simp only [hD2, psF_none] at h
          simp at h
          exact h.2.symm
      case Flush =>
        rw [psF_Flush] at h
        have hD : doNext ⟨some Token.Flush, ([] : List Nat)⟩ = .ok ⟨none, []⟩ := rfl
        simp only [hD] at h
        cases g with
        | zero => simp only [psF_zero] at h; exact Option.noConfusion h
        | succ g2 =>
          simp only [psF_none] at h
          simp at h
          exact h.2.symm
      all_goals simp [tokAtom] at htok

theorem atomRhs_form {f : Nat} {s : PState} {node : AstNode}
    {st : List AstNode} {s' : PState}
    (ih : ∀ (s0 : PState) (st0 : List AstNode) (s0' : PState),
      parseStatementsF f s0 = some (.ok (st0, s0')) →
      s0'.current = none ∨ s0'.current = some .CloseBracket)
    (h : atomRhs f s node = some (.ok (st, s'))) :
    s'.current = none ∨ s'.current = some .CloseBracket := by
  unfold atomRhs at h
  cases hX : doNext s with
  | error e => simp only [hX] at h; simp at h
  | ok s1 =>
    simp only [hX] at h
    cases hY : parseStatementsF f s1 with
    | none => simp only [hY] at h; exact Option.noConfusion h
    | some v =>
      simp only [hY] at h
      cases v with
      | error e => simp at h
      | ok p =>
        obtain ⟨st1, s2⟩ := p
        simp at h
        rw [← h.2]
        exact ih s1 st1 s2 hY

/-- The statement loop can only stop on a `null` lookahead or on a
`CloseBracket`. -/
theorem psF_form : ∀ (f : Nat) (s : PState) (st : List AstNode) (s' : PState),
    parseStatementsF f s = some (.ok (st, s')) →
    s'.current = none ∨ s'.current = some .CloseBracket := by
  intro f
  induction f with
  | zero => intro s st s' h; simp only [psF_zero] at h; exact Option.noConfusion h
  | succ f ih =>
    intro s st s' h
    obtain ⟨cur, rest⟩ := s
    cases cur with
    | none =>
      rw [psF_none] at h
      simp at h
      rw [← h.2]
      exact Or.inl rfl
    | some t =>
      cases htok : tokAtom t with
      | some node =>
        rw [psF_succ_atom f t rest node htok] at h
        exact atomRhs_form ih h
      | none =>
        cases t
        case Asm => exact absurd h psF_Asm_no_ok
        case CloseBracket =>
          rw [psF_Close] at h
          simp at h
          rw [← h.2]
          exact Or.inr rfl
        case Flush =>
          rw [psF_Flush] at h
          cases hX : doNext ⟨some Token.Flush, rest⟩ with
          | error e => simp only [hX] at h; simp at h
          | ok s1 =>
            simp only [hX] at h
            exact ih s1 st s' h
        case OpenBracket =>
          rw [psF_Open] at h
          cases hX : doNext ⟨some Token.OpenBracket, rest⟩ with
          | error e => simp only [hX] at h; simp at h
          | ok s1 =>
            simp only [hX] at h
            cases hY : parseStatementsF f s1 with
            | none => simp only [hY] at h; exact Option.noConfusion h
            | some v =>
              simp only [hY] at h
              cases v with
              | error e => simp at h
              | ok p =>
                obtain ⟨body, s2⟩ := p
                cases hZ : doNext s2 with
                | error e => simp only [hZ] at h; simp at h
                | ok s3 =>
                  simp only [hZ] at h
                  cases hW : parseStatementsF f s3 with
                  | none => simp only [hW] at h; exact Option.noConfusion h
                  | some w =>
                    simp only [hW] at h
                    cases w with
                    | error e => simp at h
                    | ok p2 =>
                      obtain ⟨st2, s4⟩ := p2
                      simp at h
                      rw [← h.2]
                      exact ih s3 st2 s4 hW
        all_goals simp [tokAtom] at htok

theorem atomRhs_none_rest {f : Nat} {cur : Option Token} {rest : List Nat} {node : AstNode}
    {st : List AstNode} {s' : PState}
    (ih : ∀ (t0 : Token) (r0 : List Nat) (st0 : List AstNode) (s0' : PState),
      parseStatementsF f ⟨some t0, r0⟩ = some (.ok (st0, s0')) →
      s0'.current = none → s0'.rest = [])
    (h : atomRhs f ⟨cur, rest⟩ node = some (.ok (st, s'))) (hn : s'.current = none) :
    s'.rest = [] := by
  unfold atomRhs at h
  rw [doNext_eq] at h
  cases hT : tokNext rest with
  | error e => simp only [hT] at h; simp at h
  | ok p =>
    obtain ⟨t1, r1⟩ := p
    simp only [hT] at h
    cases t1 with
    | none =>
      obtain ⟨hr1, -⟩ := tokNext_done hT
      subst hr1
      cases f with
      | zero => simp only [psF_zero] at h; exact Option.noConfusion h
      | succ g =>
        simp only [psF_none] at h
        simp at h
        rw [← h.2]
    | some u =>
      cases hY : parseStatementsF f ⟨some u, r1⟩ with
      | none => simp only [hY] at h; exact Option.noConfusion h
      | some v =>
        simp only [hY] at h
        cases v with
        | error e => simp at h
        | ok p2 =>
          obtain ⟨st1, s2⟩ := p2
          simp at h
          rw [← h.2] at hn ⊢
          exact ih u r1 st1 s2 hY hn

/-- When a parse that starts on a token ends with a `null` lookahead, the
tokenizer is exhausted. -/
theorem psF_none_rest : ∀ (f : Nat) (t : Token) (rest : List Nat)
    (st : List AstNode) (s' : PState),
    parseStatementsF f ⟨some t, rest⟩ = some (.ok (st, s')) →
    s'.current = none → s'.rest = [] := by
  intro f
  induction f with
  | zero => intro t rest st s' h; simp only [psF_zero] at h; exact Option.noConfusion h
  | succ f ih =>
    intro t rest st s' h hn
    cases htok : tokAtom t with
    | some node =>
      rw [psF_succ_atom f t rest node htok] at h
      exact atomRhs_none_rest ih h hn
    | none =>
      cases t
      case Asm => exact absurd h psF_Asm_no_ok
      case CloseBracket =>
        rw [psF_Close] at h
        simp at h
        rw [← h.2] at hn
        simp at hn
      case Flush =>
        rw [psF_Flush] at h
        rw [doNext_eq] at h
        cases hT : tokNext rest with
        | error e => simp only [hT] at h; simp at h
        | ok p =>
          obtain ⟨t1, r1⟩ := p
          simp only [hT] at h
          cases t1 with
          | none =>
            obtain ⟨hr1, -⟩ := tokNext_done hT
            subst hr1
            cases f with
            | zero => simp only [psF_zero] at h; exact Option.noConfusion h
            | succ g =>
              simp only [psF_none] at h
              simp at h
              rw [← h.2]
          | some u => exact ih u r1 st s' h hn
      case OpenBracket =>
        rw [psF_Open] at h
        rw [doNext_eq] at h
        cases hT : tokNext rest with
        | error e => simp only [hT] at h; simp at h
        | ok p =>
          obtain ⟨t1, r1⟩ := p
          simp only [hT] at h
          cases t1 with
          | none =>
            obtain ⟨hr1, -⟩ := tokNext_done hT
            subst hr1
            cases f with
            | zero => simp only [psF_zero] at h; exact Option.noConfusion h
            | succ g =>
              simp only [psF_none] at h
              have hD2 : doNext ⟨none, ([] : List Nat)⟩ = .ok ⟨none, []⟩ := rfl
              simp only [hD2, psF_none] at h
              simp at h
              rw [← h.2]
          | some u =>
            cases hY : parseStatementsF f ⟨some u, r1⟩ with
            | none => simp only [hY] at h; exact Option.noConfusion h
            | some v =>
              simp only [hY] at h
              cases v with
              | error e => simp at h
              | ok p2 =>
                obtain ⟨body, s2⟩ := p2
                obtain ⟨cur2, r2⟩ := s2
                cases cur2 with
                | none =>
                  have hr2 : r2 = [] := ih u r1 body ⟨none, r2⟩ hY rfl
                  subst hr2
                  have hD2 : doNext ⟨none, ([] : List Nat)⟩ = .ok ⟨none, []⟩ := rfl
                  simp only [hD2] at h
                  cases f with
                  | zero => simp only [psF_zero] at h; exact Option.noConfusion h
                  | succ g =>
                    simp only [psF_none] at h
                    simp at h
                    rw [← h.2] at hn ⊢
                | some tk =>
                  simp only [doNext_eq] at h
                  cases hT3 : tokNext r2 with
                  | error e => simp only [hT3] at h; simp at h
                  | ok p3 =>
                    obtain ⟨t3, r3⟩ := p3
                    simp only [hT3] at h
                    cases t3 with
                    | none =>
                      obtain ⟨hr3, -⟩ := tokNext_done hT3
                      subst hr3
                      cases f with
                      | zero => simp only [psF_zero] at h; exact Option.noConfusion h
                      | succ g =>
                        simp only [psF_none] at h
                        simp at h
                        rw [← h.2]
                    | some v3 =>
                      cases hW : parseStatementsF f ⟨some v3, r3⟩ with
                      | none => simp only [hW] at h; exact Option.noConfusion h
                      | some w =>
                        simp only [hW] at h
                        cases w with
                        | error e => simp at h
                        | ok p4 =>
                          obtain ⟨st2, s4⟩ := p4
                          simp at h
                          rw [← h.2] at hn ⊢
                          exact ih v3 r3 st2 s4 hW hn
      all_goals simp [tokAtom] at htok

theorem atomRhs_sim {f : Nat} {q : List Nat}
    (ihsim : ∀ (u : Token) (r1 : List Nat) (st0 : List AstNode) (r0 : List Nat),
      parseStatementsF f ⟨some u, r1⟩ = some (.ok (st0, ⟨some .CloseBracket, r0⟩)) →
      parseStatementsF f ⟨some u, r1 ++ q⟩ = some (.ok (st0, ⟨some .CloseBracket, r0 ++ q⟩)))
    {cur cur2 : Option Token} {rest : List Nat} {node : AstNode}
    {stmts : List AstNode} {r' : List Nat}
    (h : atomRhs f ⟨cur, rest⟩ node = some (.ok (stmts, ⟨some .CloseBracket, r'⟩))) :
    atomRhs f ⟨cur2, rest ++ q⟩ node = some (.ok (stmts, ⟨some .CloseBracket, r' ++ q⟩)) := by
  unfold atomRhs at h ⊢
  rw [doNext_eq] at h
  rw [doNext_eq]
  cases hT : tokNext rest with
  | error e => simp only [hT] at h; simp at h
  | ok p =>
    obtain ⟨t1, r1⟩ := p
    cases t1 with
    | none =>
      obtain ⟨hr1, -⟩ := tokNext_done hT
      subst hr1
      simp only [hT] at h
      cases f with
      | zero => simp only [psF_zero] at h; exact Option.noConfusion h
      | succ g => simp only [psF_none] at h; simp at h
    | some u =>
      simp only [hT] at h
      cases hY : parseStatementsF f ⟨some u, r1⟩ with
      | none => simp only [hY] at h; exact Option.noConfusion h
      | some v =>
        cases v with
        | error e => simp only [hY] at h; simp at h
        | ok p2 =>
          obtain ⟨st1, s2⟩ := p2
          obtain ⟨c2, r2⟩ := s2
          simp only [hY] at h
          simp at h
          obtain ⟨h1, h2, h3⟩ := h
          have hcond : r1 ≠ [] ∨ u = .CloseBracket := by
            by_cases hr1 : r1 = []
            · by_cases hu : u = .CloseBracket
              · exact Or.inr hu
              · subst hr1
                have he := psF_aux_empty f u hu st1 ⟨c2, r2⟩ hY
                rw [h2] at he
                simp at he
            · exact Or.inl hr1
          have hext := tokNext_ext hT hcond q
          simp only [hext]
          rw [h2, h3] at hY
          simp only [ihsim u r1 st1 r' hY]
          rw [h1]

/-- The simulation at the heart of claim C10: a parse that ends on a
`CloseBracket` lookahead never pulls the tokenizer past that bracket, so
appending anything after the consumed input leaves the parse unchanged
(with the suffix appearing untouched after the final state). -/
theorem psF_sim : ∀ (f : Nat) (t : Token) (rest : List Nat) (stmts : List AstNode)
    (r' : List Nat) (q : List Nat),
    parseStatementsF f ⟨some t, rest⟩ = some (.ok (stmts, ⟨some .CloseBracket, r'⟩)) →
    parseStatementsF f ⟨some t, rest ++ q⟩ =
      some (.ok (stmts, ⟨some .CloseBracket, r' ++ q⟩)) := by
  intro f
  induction f with
  | zero => intro t rest stmts r' q h; simp only [psF_zero] at h; exact Option.noConfusion h
  | succ f ih =>
    intro t rest stmts r' q h
    have ihsim : ∀ (u : Token) (r1 : List Nat) (st0 : List AstNode) (r0 : List Nat),
        parseStatementsF f ⟨some u, r1⟩ = some (.ok (st0, ⟨some .CloseBracket, r0⟩)) →
        parseStatementsF f ⟨some u, r1 ++ q⟩ =
          some (.ok (st0, ⟨some .CloseBracket, r0 ++ q⟩)) :=
      fun u r1 st0 r0 hh => ih u r1 st0 r0 q hh
    cases htok : tokAtom t with
    | some node =>
      rw [psF_succ_atom f t rest node htok] at h
      rw [psF_succ_atom f t (rest ++ q) node htok]
      exact atomRhs_sim ihsim h
    | none =>
      cases t
      case Asm => exact absurd h psF_Asm_no_ok
      case CloseBracket =>
        rw [psF_Close] at h
        simp at h
        rw [psF_Close]
        rw [h.1, h.2]
      case Flush =>
        rw [psF_Flush] at h
        rw [psF_Flush]
        rw [doNext_eq] at h
        rw [doNext_eq]
        cases hT : tokNext rest with
        | error e => simp only [hT] at h; simp at h
        | ok p =>
          obtain ⟨t1, r1⟩ := p
          cases t1 with
          | none =>
            obtain ⟨hr1, -⟩ := tokNext_done hT
            subst hr1
            simp only [hT] at h
            cases f with
            | zero => simp only [psF_zero] at h; exact Option.noConfusion h
            | succ g => simp only [psF_none] at h; simp at h
          | some u =>
            simp only [hT] at h
            have hcond : r1 ≠ [] ∨ u = .CloseBracket := by
              by_cases hr1 : r1 = []
              · by_cases hu : u = .CloseBracket
                · exact Or.inr hu
                · subst hr1
                  have he := psF_aux_empty f u hu stmts ⟨some .CloseBracket, r'⟩ h
                  simp at he
              · exact Or.inl hr1
            have hext := tokNext_ext hT hcond q
            simp only [hext]
            exact ihsim u r1 stmts r' h
      case OpenBracket =>
        rw [psF_Open] at h
        rw [psF_Open]
        rw [doNext_eq] at h
        rw [doNext_eq]
        cases hT : tokNext rest with
        | error e => simp only [hT] at h; simp at h
        | ok p =>
          obtain ⟨t1, r1⟩ := p
          cases t1 with
          | none =>
            obtain ⟨hr1, -⟩ := tokNext_done hT
            subst hr1
            simp only [hT] at h
            cases f with
            | zero => simp only [psF_zero] at h; exact Option.noConfusion h
            | succ g =>
              simp only [psF_none] at h
              have hD2 : doNext ⟨none, ([] : List Nat)⟩ = .ok ⟨none, []⟩ := rfl
              simp only [hD2, psF_none] at h
              simp at h
          | some u =>
            simp only [hT] at h
            cases hY : parseStatementsF f ⟨some u, r1⟩ with
            | none => simp only [hY] at h; exact Option.noConfusion h
            | some v =>
              cases v with
              | error e => simp only [hY] at h; simp at h
              | ok p2 =>
                obtain ⟨body, s2⟩ := p2
                obtain ⟨c2, r2⟩ := s2
                simp only [hY] at h
                cases c2 with
                | none =>
                  have hr2 : r2 = [] := psF_none_rest f u r1 body ⟨none, r2⟩ hY rfl
                  subst hr2
                  have hD2 : doNext ⟨none, ([] : List Nat)⟩ = .ok ⟨none, []⟩ := rfl
                  simp only [hD2] at h
                  cases f with
                  | zero => simp only [psF_zero] at h; exact Option.noConfusion h
                  | succ g =>
                    simp only [psF_none] at h
                    simp at h
                | some tk =>
                  have hform := psF_form f ⟨some u, r1⟩ body ⟨some tk, r2⟩ hY
                  simp at hform
                  subst hform
                  have hcond : r1 ≠ [] ∨ u = .CloseBracket := by
                    by_cases hr1 : r1 = []
                    · by_cases hu : u = .CloseBracket
                      · exact Or.inr hu
                      · subst hr1
                        have he := psF_aux_empty f u hu body ⟨some .CloseBracket, r2⟩ hY
                        simp at he
                    · exact Or.inl hr1
                  have hext := tokNext_ext hT hcond q
                  simp only [hext]
                  simp only [ihsim u r1 body r2 hY]
                  simp only [doNext_eq] at h
                  simp only [doNext_eq]
                  cases hT3 : tokNext r2 with
                  | error e => simp only [hT3] at h; simp at h
                  | ok p3 =>
                    obtain ⟨t3, r3⟩ := p3
                    cases t3 with
                    | none =>
                      obtain ⟨hr3, -⟩ := tokNext_done hT3
                      subst hr3
                      simp only [hT3] at h
                      cases f with
                      | zero => simp only [psF_zero] at h; exact Option.noConfusion h
                      | succ g =>
                        simp only [psF_none] at h
                        simp at h
                    | some v3 =>
                      simp only [hT3] at h
                      cases hW : parseStatementsF f ⟨some v3, r3⟩ with
                      | none => simp only [hW] at h; exact Option.noConfusion h
                      | some w =>
                        cases w with
                        | error e => simp only [hW] at h; simp at h
                        | ok p4 =>
                          obtain ⟨st2, s4⟩ := p4
                          obtain ⟨c4, r4⟩ := s4
                          simp only [hW] at h
                          simp at h
                          obtain ⟨h1, h2, h3⟩ := h
                          have hcond3 : r3 ≠ [] ∨ v3 = .CloseBracket := by
                            by_cases hr3 : r3 = []
                            · by_cases hv : v3 = .CloseBracket
                              · exact Or.inr hv
                              · subst hr3
                                have he := psF_aux_empty f v3 hv st2 ⟨c4, r4⟩ hW
                                rw [h2] at he
                                simp at he
                            · exact Or.inl hr3
                          have hext3 := tokNext_ext hT3 hcond3 q
                          simp only [hext3]
                          rw [h2, h3] at hW
                          simp only [ihsim v3 r3 st2 r' hW]
                          rw [h1]
      all_goals simp [tokAtom] at htok

/-- Claim C10: when a source parses to a state whose final lookahead is
the outermost-depth `CloseBracket` with the tokenizer exhausted,
appending ANY suffix after it leaves the parse result unchanged - the
parser returns the same AST, the suffix survives verbatim as the
unconsumed remainder (no character of it is ever examined by the lazy
lexer), and so a suffix full of invalid characters, unterminated strings
or unclosed comments raises no error and contributes nothing. -/
theorem C10_suffix_never_read (x : List Nat) (stmts : List AstNode)
    (h : parseWithRest x = some (.ok (stmts, ⟨some .CloseBracket, []⟩))) (q : List Nat) :
    parseWithRest (x ++ q) = some (.ok (stmts, ⟨some .CloseBracket, q⟩)) ∧
    parse (x ++ q) = some (.ok stmts) := by
  unfold parseWithRest at h
  rw [doNext_eq] at h
  cases hT : tokNext x with
  | error e => simp only [hT] at h; simp at h
  | ok p =>
    obtain ⟨t1, r1⟩ := p
    simp only [hT] at h
    cases t1 with
    | none =>
      have hp : pfuel x = (2 * x.length + 1) + 1 := by simp [pfuel]
      rw [hp, psF_none] at h
      simp at h
    | some u =>
      have hcond : r1 ≠ [] ∨ u = .CloseBracket := by
        by_cases hr1 : r1 = []
        · by_cases hu : u = .CloseBracket
          · exact Or.inr hu
          · subst hr1
            have he := psF_aux_empty (pfuel x) u hu stmts ⟨some .CloseBracket, []⟩ h
            simp at he
        · exact Or.inl hr1
      have hext := tokNext_ext hT hcond q
      have hsim := psF_sim (pfuel x) u r1 stmts [] q h
      have hfin : parseWithRest (x ++ q) = some (.ok (stmts, ⟨some .CloseBracket, q⟩)) := by
        unfold parseWithRest
        rw [doNext_eq]
        simp only [hext]
        have hmono := psF_mono (pfuel x) _ _ hsim (pfuel (x ++ q))
          (by simp only [pfuel, List.length_append]; omega)
        simpa using hmono
      exact ⟨hfin, by unfold parse; rw [hfin]; rfl⟩

/-- A closed instance of claim C10: `1]` parses to `[Integer 1]` ending
at the top-level close bracket, so the source `1]€{x"` - whose suffix
cannot even be tokenized (invalid character, unclosed comment,
unterminated string) - still parses successfully to `[Integer 1]`. -/
theorem C10_suffix_witness :
    parse (units "1]" ++ units "€\x7bx\"") = some (.ok [.Integer 1]) :=
  (C10_suffix_never_read (units "1]") [.Integer 1] rfl (units "€\x7bx\"")).2

end FalseC
